import Mathlib

/-!
Verification of the Number Match solver (src/solver.js).

The JavaScript source is shallowly embedded: boards are lists of integers
(a digit 1..9 is an active cell, 0 a cleared cell, -1 the sentinel used for
padding), moves are pairs of flat board positions, and every function below
mirrors the control flow of the JavaScript function of the same name.
-/

def ROW_SIZE : Nat := 9

abbrev Board := List Int

abbrev Move := Nat × Nat

/-- The comma separator used by boardKey. -/
def commaSep : String := ","

/-- The empty string; parseBoard returns the empty board for it. -/
def emptyText : String := ""

/-- JS String.prototype.trim over the character list (the board texts use
ASCII characters, for which Char.isWhitespace matches the JS definition). -/
def jsTrim (cs : List Char) : List Char :=
  ((cs.dropWhile Char.isWhitespace).reverse.dropWhile Char.isWhitespace).reverse

/-- JS split("\n") over the character list. -/
def splitNewlines : List Char → List (List Char)
  | [] => [[]]
  | c :: rest =>
    match splitNewlines rest with
    | [] => [[c]]
    | l :: ls => if c = '\n' then [] :: l :: ls else (c :: l) :: ls

/-- The character loop of parseBoard: '.' pushes 0, a digit 1-9 pushes its
value, every other character is skipped (the JS loop has no else branch). -/
def rowCells (cs : List Char) : List Int :=
  cs.foldl (fun row ch =>
    if ch = '.' then row ++ [(0 : Int)]
    else if '1' ≤ ch && ch ≤ '9' then row ++ [((ch.toNat : Int) - 48)]
    else row) []

/-- The padding loop of parseBoard: push -1 while the row is shorter than 9. -/
def padRow (row : List Int) : List Int :=
  row ++ List.replicate (ROW_SIZE - row.length) (-1)

/-- The line preprocessing of parseBoard: trim the text, split on newlines,
trim each line, and drop empty lines (the filter(Boolean) in the source). -/
def parseLines (s : String) : List (List Char) :=
  ((splitNewlines (jsTrim s.data)).map jsTrim).filter (fun l => l ≠ [])

/-- parseBoard from src/solver.js: parse each retained line into cells, pad
each row to width 9 with sentinels, and concatenate the rows. -/
def parseBoard (s : String) : Board :=
  ((parseLines s).map (fun l => padRow (rowCells l))).flatten

/-- getRowCol from src/solver.js. -/
def getRowCol (idx : Nat) : Nat × Nat := (idx / ROW_SIZE, idx % ROW_SIZE)

/-- getIndex from src/solver.js. -/
def getIndex (r c : Nat) : Nat := r * ROW_SIZE + c

/-- JS test v <= 0 on a possibly missing cell: undefined <= 0 is false. -/
def jsNonPos : Option Int → Bool
  | none => false
  | some v => v ≤ 0

/-- JS strict equality a === b on possibly missing cells: undefined === undefined
is true, undefined === number is false. -/
def jsStrictEq : Option Int → Option Int → Bool
  | none, none => true
  | some a, some b => a = b
  | _, _ => false

/-- JS test a + b === 10 on possibly missing cells: any NaN comparison is false. -/
def jsSum10 : Option Int → Option Int → Bool
  | some a, some b => a + b = 10
  | _, _ => false

/-- isValidPair from src/solver.js. -/
def isValidPair (board : Board) (i j : Nat) : Bool :=
  let a := board.get? i
  let b := board.get? j
  if jsNonPos a || jsNonPos b then false
  else jsStrictEq a b || jsSum10 a b

/-- The scanning loop of findNextInDir. The JS loop bound r < nRows uses
nRows = n / 9 in real arithmetic; for an integer r that is r * 9 < n.
Out-of-range reads board[idx] are undefined, which fails the > 0 test, so
getD with default 0 is faithful. -/
def findNextAux (board : Board) (dc : Int) (n : Nat) : Nat → Nat → Int → Option Nat
  | 0, _, _ => none
  | fuel + 1, r, c =>
    if r * 9 < n ∧ 0 ≤ c ∧ c < 9 then
      let idx := r * ROW_SIZE + c.toNat
      if board.getD idx 0 > 0 then some idx
      else findNextAux board dc n fuel (r + 1) (c + dc)
    else none

/-- findNextInDir from src/solver.js, specialised to dr = 1 (its value at
every call site); scanning starts at (row + 1, col + dc). The fuel n + 1
covers every iteration: r grows by 1 per step and the loop stops once
r * 9 reaches n. -/
def findNextInDir (board : Board) (row : Nat) (col : Int) (dc : Int) (n : Nat) : Option Nat :=
  findNextAux board dc n (n + 1) (row + 1) (col + dc)

/-- The linear scan of findAllMoves: the first position after i holding an
active cell (the JS inner loop breaks at the first board[k] > 0). -/
def firstActiveAfter (board : Board) (i : Nat) : Option Nat :=
  (List.range' (i + 1) (board.length - (i + 1))).find? (fun k => board.getD k 0 > 0)

/-- The moves contributed by position i in findAllMoves, in source order:
linear, vertical down, diagonal down-right, diagonal down-left. -/
def movesAt (board : Board) (i : Nat) : List Move :=
  if board.getD i 0 ≤ 0 then []
  else
    let vi := board.getD i 0
    let ri := i / ROW_SIZE
    let ci := i % ROW_SIZE
    let linear : List Move :=
      match firstActiveAfter board i with
      | some k => if vi = board.getD k 0 || vi + board.getD k 0 = 10 then [(i, k)] else []
      | none => []
    let vert : List Move :=
      match findNextInDir board ri (ci : Int) 0 board.length with
      | some j => if i < j && isValidPair board i j then [(i, j)] else []
      | none => []
    let diagR : List Move :=
      match findNextInDir board ri (ci : Int) 1 board.length with
      | some j => if i < j && isValidPair board i j then [(i, j)] else []
      | none => []
    let diagL : List Move :=
      match findNextInDir board ri (ci : Int) (-1) board.length with
      | some j => if i < j && isValidPair board i j then [(i, j)] else []
      | none => []
    linear ++ vert ++ diagR ++ diagL

/-- findAllMoves from src/solver.js: scan positions in ascending order. -/
def findAllMoves (board : Board) : List Move :=
  (List.range board.length).flatMap (movesAt board)

/-- An out-of-range JS array write b[i] = x grows the array, leaving holes;
undefCell stands for those undefined holes. Every later read of such a cell
only tests positivity, which undefined fails, as does -2. -/
def undefCell : Int := -2

/-- JS array write b[i] = x, including growth past the current length. -/
def jsSet (l : List Int) (i : Nat) (x : Int) : List Int :=
  if i < l.length then l.set i x
  else l ++ List.replicate (i - l.length) undefCell ++ [x]

/-- The recursion of chunksOfRow on explicit fuel (each step drops at least
one cell, so fuel equal to the length suffices). -/
def chunksOfRowAux : Nat → List Int → List (List Int)
  | 0, _ => []
  | fuel + 1, l => if l = [] then [] else l.take ROW_SIZE :: chunksOfRowAux fuel (l.drop ROW_SIZE)

/-- The row loop of applyMove and getRemovedRow: slices of 9 cells, the last
slice possibly shorter (the JS bound r < b.length / 9 runs ceil(len/9) times). -/
def chunksOfRow (l : List Int) : List (List Int) :=
  chunksOfRowAux l.length l

/-- applyMove from src/solver.js: clear both positions, then keep exactly the
rows that still contain an active cell. -/
def applyMove (board : Board) (i j : Nat) : Board :=
  let b := jsSet (jsSet board i 0) j 0
  ((chunksOfRow b).filter (fun row => row.any (fun v => v > 0))).flatten

/-- The truncation step of extendBoard: slicing up to the last non-sentinel
index (lastIndex = -1 giving the empty board). The subsequent pop loop of the
source computes this same function and is applied a second time below. -/
def dropTrailingSentinels (l : List Int) : List Int :=
  (l.reverse.dropWhile (fun v => v = -1)).reverse

/-- extendBoard from src/solver.js: append all active cells after the
truncated board, then pad with sentinels to a multiple of 9. -/
def extendBoard (board : Board) : Board :=
  let remaining := board.filter (fun v => v > 0)
  let newBoard := dropTrailingSentinels board
  let newBoard := dropTrailingSentinels newBoard
  let appended := newBoard ++ remaining
  appended ++ List.replicate ((ROW_SIZE - appended.length % ROW_SIZE) % ROW_SIZE) (-1)

/-- remainingCount from src/solver.js. -/
def remainingCount (board : Board) : Nat :=
  board.countP (fun v => decide (v > 0))

/-- boardKey from src/solver.js: board.join(","). -/
def boardKey (board : Board) : String :=
  String.intercalate commaSep (board.map (fun v => toString v))

/-- The first loop of hasClearPath: is any cell strictly between i and j in
the flattened order active? -/
def anyActiveBetweenLinear (board : Board) (i j : Nat) : Bool :=
  (List.range' (i + 1) (j - (i + 1))).any (fun k => board.getD k 0 > 0)

/-- The vertical loop of hasClearPath: is any cell strictly between rows ri
and rj in column ci active? -/
def verticalBlocked (board : Board) (ri rj ci : Nat) : Bool :=
  (List.range' (ri + 1) (rj - (ri + 1))).any (fun r => board.getD (getIndex r ci) 0 > 0)

/-- The diagonal loop of hasClearPath: every intermediate diagonal cell must
be inside the row width and not active (the JS loop returns false at the
first violation of either condition). -/
def diagonalScanClear (board : Board) (ri rj ci : Nat) (cs : Int) : Bool :=
  (List.range' 1 (rj - ri - 1)).all (fun t =>
    let c : Int := (ci : Int) + cs * (t : Int)
    decide (0 ≤ c) && decide (c < 9) && !(board.getD (getIndex (ri + t) c.toNat) 0 > 0))

/-- hasClearPath from src/solver.js (argument order i, j, board as in the
source). -/
def hasClearPath (i j : Nat) (board : Board) : Bool :=
  if i = j then false
  else
    let lo := if i > j then j else i
    let hi := if i > j then i else j
    let ri := lo / ROW_SIZE
    let ci := lo % ROW_SIZE
    let rj := hi / ROW_SIZE
    let cj := hi % ROW_SIZE
    if !(anyActiveBetweenLinear board lo hi) then true
    else if ci = cj then !(verticalBlocked board ri rj ci)
    else
      let rd : Int := (rj : Int) - (ri : Int)
      let cd : Int := (cj : Int) - (ci : Int)
      if rd.natAbs = cd.natAbs then
        let cs : Int := if cd > 0 then 1 else -1
        diagonalScanClear board ri rj ci cs
      else false

/-- isMoveValidOnBoard from src/solver.js. -/
def isMoveValidOnBoard (board : Board) (move : Move) : Bool :=
  if move.1 ≥ board.length || move.2 ≥ board.length then false
  else isValidPair board move.1 move.2 && hasClearPath move.1 move.2 board

/-- getRemovedRow from src/solver.js: none when the lengths agree (the JS
compares length/9 in real arithmetic, which is equivalent), else the first
row of the cleared-but-uncompacted board holding no active cell. The JS
loop bound r < rowsBefore runs ceil(length/9) integer iterations. -/
def getRemovedRow (boardBefore boardAfter : Board) (m : Move) : Option Nat :=
  if boardBefore.length = boardAfter.length then none
  else
    let tempBoard := jsSet (jsSet boardBefore m.1 0) m.2 0
    (List.range ((boardBefore.length + 8) / 9)).find?
      (fun r => !(((tempBoard.drop (r * 9)).take 9).any (fun v => v > 0)))

/-- isDiagonalMove from src/solver.js. -/
def isDiagonalMove (m : Move) : Bool :=
  let ri := m.1 / ROW_SIZE
  let ci := m.1 % ROW_SIZE
  let rj := m.2 / ROW_SIZE
  let cj := m.2 % ROW_SIZE
  decide (ri ≠ rj) && decide (ci ≠ cj)

/-- diagonalCrossesRow from src/solver.js. -/
def diagonalCrossesRow (m : Move) (removedRow : Nat) : Bool :=
  let ri := m.1 / ROW_SIZE
  let ci := m.1 % ROW_SIZE
  let rj := m.2 / ROW_SIZE
  let cj := m.2 % ROW_SIZE
  if ri = rj || ci = cj then false
  else if ri = removedRow || rj = removedRow then false
  else decide (min ri rj < removedRow) && decide (removedRow < max ri rj)

/-- A display step of groupMovesForDisplay: the board at the start of the
step, the moves of the step, and the index of its row-removal move (-1 when
there is none), exactly the record the source builds. -/
structure Step where
  board : Board
  moves : List Move
  rowRemovalIdx : Int
deriving Repr, DecidableEq

/-- Step 1 of groupMovesForDisplay: replay the moves once, tagging each move
with whether it shrank the board and, if so, which row was removed. -/
def tagMoves : Board → List Move → List (Bool × Option Nat)
  | _, [] => []
  | bd, m :: rest =>
    let bd2 := applyMove bd m.1 m.2
    let tag := if bd2.length < bd.length then (true, getRemovedRow bd bd2 m) else (false, none)
    tag :: tagMoves bd2 rest

/-- The inner while loop of groupMovesForDisplay: split the remaining moves
of a segment into the sublist currently valid on the board (one step) and the
deferred rest; if no move is valid, force-admit the first deferred move. -/
def subgroupLoopAux : Nat → Board → List Move → List Step × Board
  | 0, segBoard, _ => ([], segBoard)
  | fuel + 1, segBoard, remaining =>
    if remaining = [] then ([], segBoard)
    else
      if remaining.filter (fun mv => isMoveValidOnBoard segBoard mv) = [] then
        match remaining.filter (fun mv => !(isMoveValidOnBoard segBoard mv)) with
        | [] => ([], segBoard)
        | d0 :: ds =>
          let res := subgroupLoopAux fuel (applyMove segBoard d0.1 d0.2) ds
          (⟨segBoard, [d0], -1⟩ :: res.1, res.2)
      else
        let subgroup := remaining.filter (fun mv => isMoveValidOnBoard segBoard mv)
        let res :=
          subgroupLoopAux fuel (subgroup.foldl (fun bd mv => applyMove bd mv.1 mv.2) segBoard)
            (remaining.filter (fun mv => !(isMoveValidOnBoard segBoard mv)))
        (⟨segBoard, subgroup, -1⟩ :: res.1, res.2)

/-- The inner while loop of groupMovesForDisplay: split the remaining moves
of a segment into the sublist currently valid on the board (one step) and
the deferred rest; if no move is valid, force-admit the first deferred move.
Every round strictly shrinks the remaining list, so fuel length + 1
suffices. -/
def subgroupLoop (segBoard : Board) (remaining : List Move) : List Step × Board :=
  subgroupLoopAux (remaining.length + 1) segBoard remaining

/-- The row-removal handling of groupMovesForDisplay step 2: merge the
removal move into the previous step when it is valid on that step's starting
board and no diagonal move of that step crosses the removed row; otherwise
give it its own single-move step. -/
def mergeRowRemoval (acc : List Step) (curBoard : Board) (mv : Move)
    (removedRow : Option Nat) : List Step × Board :=
  let canMerge :=
    match acc.getLast? with
    | none => false
    | some lastStep =>
      if isMoveValidOnBoard lastStep.board mv then
        match removedRow with
        | some rr => lastStep.moves.all (fun m => !(isDiagonalMove m && diagonalCrossesRow m rr))
        | none => true
      else false
  if canMerge then
    match acc.getLast? with
    | some lastStep =>
      (acc.dropLast ++
        [{ lastStep with
            moves := lastStep.moves ++ [mv],
            rowRemovalIdx := (lastStep.moves.length : Int) }],
       applyMove curBoard mv.1 mv.2)
    | none => (acc ++ [⟨curBoard, [mv], 0⟩], applyMove curBoard mv.1 mv.2)
  else (acc ++ [⟨curBoard, [mv], 0⟩], applyMove curBoard mv.1 mv.2)

/-- The main loop of groupMovesForDisplay step 2 over i = 0 .. moves.length:
at a row-removal index or at the end, flush the pending segment through
subgroupLoop, then handle the removal move, and restart the segment at
i + 1. -/
def groupStep2 (moves : List Move) (tags : List (Bool × Option Nat)) :
    Nat → Nat → Nat → Board → List Step → List Step
  | 0, _, _, _, acc => acc
  | fuel + 1, i, segStart, curBoard, acc =>
    if i ≤ moves.length then
      let isRR := (tags.getD i (false, none)).1
      let isLast := i = moves.length
      if isRR ∨ isLast then
        let segRes :=
          if segStart < i then subgroupLoop curBoard ((moves.drop segStart).take (i - segStart))
          else ([], curBoard)
        let acc1 := acc ++ segRes.1
        let next :=
          if isRR then
            mergeRowRemoval acc1 segRes.2 (moves.getD i (0, 0)) (tags.getD i (false, none)).2
          else (acc1, segRes.2)
        groupStep2 moves tags fuel (i + 1) (i + 1) next.2 next.1
      else groupStep2 moves tags fuel (i + 1) segStart curBoard acc
    else acc

/-- groupMovesForDisplay from src/solver.js: the step-2 loop runs i from 0
to moves.length inclusive, so fuel moves.length + 2 covers every
iteration. -/
def groupMovesForDisplay (startBoard : Board) (moves : List Move) : List Step :=
  groupStep2 moves (tagMoves startBoard moves) (moves.length + 2) 0 0 startBoard []

/-- A ranked terminal result of the solver: the move sequence and the
terminal board it reaches (the {seq, board} records of topResults). -/
structure SearchEntry where
  seq : List Move
  board : Board
deriving Repr, DecidableEq

/-- One moveProgress slot of the solver: total moves and the 1-based index of
the move currently explored at that depth. -/
structure MoveProg where
  total : Nat
  current : Nat
deriving Repr, DecidableEq

/-- The data a progress message is formatted from before being handed to the
progress callback. The JS renders these numbers into a string (including a
float percentage); the claims never inspect that text, so the report keeps
the numbers themselves. -/
structure ProgressReport where
  explored : Nat
  skipped : Nat
  best : Option Nat
  current : Nat
  depth : Nat
  progress : List MoveProg
deriving Repr, DecidableEq

/-- The search-proper state of one solve invocation: everything the dfs of
the source reads or writes except the timing of progress messages. -/
structure SearchCore where
  visited : List String
  topResults : List SearchEntry
  maxTopRemaining : Option Nat
  statesExplored : Nat
  statesSkipped : Nat
  solved : Bool
  moveProgress : List MoveProg
deriving Repr, DecidableEq

/-- The observation-only state: callback presence, lastProgressTime, the
stream of upcoming Date.now() readings, and the emitted reports. -/
structure SearchAux where
  hasCb : Bool
  lastProgressTime : Int
  clock : List Int
  log : List ProgressReport
deriving Repr, DecidableEq

/-- The full state threaded through dfs. -/
structure SearchState where
  core : SearchCore
  aux : SearchAux
deriving Repr, DecidableEq

/-- PROGRESS_INTERVAL from src/solver.js. -/
def PROGRESS_INTERVAL : Int := 2000

/-- The bestRemaining read in the progress block: remaining count of the
first ranked result, none standing for the JS Infinity of an empty list. -/
def bestRemainingOf (results : List SearchEntry) : Option Nat :=
  match results with
  | [] => none
  | r :: _ => some (remainingCount r.board)

/-- The periodic progress block of dfs: when a callback is present, read
Date.now(); if more than PROGRESS_INTERVAL has passed, emit a report built
from the search state (the first 10 moveProgress slots) and read Date.now()
again into lastProgressTime. Only the aux component changes. -/
def progressStep (curBoard : Board) (depth : Nat) (st : SearchState) : SearchState :=
  if st.aux.hasCb then
    let t1 := st.aux.clock.headD 0
    let aux1 := { st.aux with clock := st.aux.clock.tail }
    if t1 - aux1.lastProgressTime > PROGRESS_INTERVAL then
      let report : ProgressReport :=
        { explored := st.core.statesExplored
          skipped := st.core.statesSkipped
          best := bestRemainingOf st.core.topResults
          current := remainingCount curBoard
          depth := depth
          progress := st.core.moveProgress.take 10 }
      let t2 := aux1.clock.headD 0
      { st with
          aux :=
            { aux1 with
                clock := aux1.clock.tail
                lastProgressTime := t2
                log := aux1.log ++ [report] } }
    else { st with aux := aux1 }
  else st

/-- Stable insertion of an element into a sorted list: the element passes
every entry it is not strictly below, so equivalent entries keep their
original relative order. -/
def orderedInsert {α : Type} (le : α → α → Bool) (a : α) : List α → List α
  | [] => [a]
  | b :: bs => if le a b && !(le b a) then a :: b :: bs else b :: orderedInsert le a bs

/-- A stable sort by insertion, used to model Array.prototype.sort: the JS
sort is stable (ES2019) and both comparators below induce total preorders,
under which every stable sort returns the same list. -/
def stableSortJS {α : Type} (le : α → α → Bool) (l : List α) : List α :=
  l.foldl (fun acc x => orderedInsert le x acc) []

/-- The result comparator of the source: rank by remaining count, then by
move-sequence length. The JS comparator returns ra - rb (ties by length);
a stable sort under this boolean "a may stay before b" relation computes
the same list as the stable JS Array.prototype.sort. -/
def resultLE (a b : SearchEntry) : Bool :=
  let ra := remainingCount a.board
  let rb := remainingCount b.board
  decide (ra < rb) || (decide (ra = rb) && decide (a.seq.length ≤ b.seq.length))

/-- The admission condition of dfs: the ranked list is not yet full, or the
(remaining, length) key lexicographically precedes the worst kept key (an
empty list standing for an Infinity worst key). -/
def admitTest (topK : Nat) (curRemaining seqLen : Nat) (results : List SearchEntry) : Bool :=
  decide (results.length < topK) ||
    (match results.getLast? with
     | none => true
     | some w =>
       decide (curRemaining < remainingCount w.board) ||
         (decide (curRemaining = remainingCount w.board) && decide (seqLen < w.seq.length)))

/-- The terminal-state admission block of dfs: when admitTest passes, push
the terminal, stable-sort, truncate to topK, refresh maxTopRemaining, and
set solved on a zero-remaining admission. -/
def admitEntry (topK : Nat) (curBoard : Board) (curSeq : List Move)
    (core : SearchCore) : SearchCore :=
  let curRemaining := remainingCount curBoard
  if admitTest topK curRemaining curSeq.length core.topResults then
    let sorted := stableSortJS resultLE (core.topResults ++ [⟨curSeq, curBoard⟩])
    let truncated := if topK < sorted.length then sorted.dropLast else sorted
    let newMax : Option Nat :=
      match truncated.getLast? with
      | some w => some (remainingCount w.board)
      | none => none
    { core with
        topResults := truncated
        maxTopRemaining := newMax
        solved := if curRemaining = 0 then true else core.solved }
  else core

/-- Board application shrinking test used by the move-ordering heuristic. -/
def moveCausesRemoval (bd : Board) (m : Move) : Bool :=
  decide ((applyMove bd m.1 m.2).length < bd.length)

/-- The move-ordering comparator of dfs: moves that do not cause a row
removal come first, original order kept within each group. The JS comparator
returns 1 exactly when a removes and b does not; the complementary boolean
relation under a stable sort computes the same list. -/
def moveOrderLE (bd : Board) (a b : Move) : Bool :=
  !(moveCausesRemoval bd a && !(moveCausesRemoval bd b))

/-- moveProgress[depth] initialisation/update: set total (creating the slot
with current = 0 when absent, which in reachable states means
depth = moveProgress.length). -/
def setMPTotal (mp : List MoveProg) (depth total : Nat) : List MoveProg :=
  if h : depth < mp.length then mp.set depth { mp.get ⟨depth, h⟩ with total := total }
  else mp ++ [⟨total, 0⟩]

/-- moveProgress[depth].current update inside the move loop; the slot always
exists there (setMPTotal ran at this depth first), so the else branch is
unreachable. -/
def setMPCurrent (mp : List MoveProg) (depth current : Nat) : List MoveProg :=
  if h : depth < mp.length then mp.set depth { mp.get ⟨depth, h⟩ with current := current }
  else mp

/-- The backtracking truncation: if (moveProgress.length > depth)
moveProgress.length = depth. -/
def truncMP (mp : List MoveProg) (depth : Nat) : List MoveProg :=
  if depth < mp.length then mp.take depth else mp

/-- One iteration of the move loop of dfs, over an accumulator holding the
state, whether the JS "if (solved) return" fired (skipping the remaining
iterations and the final moveProgress truncation), and the moveIdx counter;
child is the recursive dfs call one fuel level down. -/
def dfsLoopStep (child : Board → List Move → SearchState → SearchState)
    (curBoard : Board) (curSeq : List Move) (depth : Nat)
    (acc : SearchState × Bool × Nat) (mv : Move) : SearchState × Bool × Nat :=
  if acc.1.core.solved then (acc.1, true, acc.2.2)
  else
    let coreB :=
      { acc.1.core with
          moveProgress := setMPCurrent acc.1.core.moveProgress depth (acc.2.2 + 1) }
    let stB := child (applyMove curBoard mv.1 mv.2) (curSeq ++ [mv]) { acc.1 with core := coreB }
    (stB, acc.2.1, acc.2.2 + 1)

/-- The recursive dfs of solve, with an explicit fuel argument (the JS
recursion has no bound; solve below passes fuel ample for every reachable
depth, since each applied move removes two active cells). -/
def dfsRun (topK : Nat) : Nat → Board → List Move → SearchState → SearchState
  | 0, _, _, st => st
  | Nat.succ fuel, curBoard, curSeq, st =>
    if st.core.solved then st
    else
      let key := boardKey curBoard
      if st.core.visited.contains key then
        { st with core := { st.core with statesSkipped := st.core.statesSkipped + 1 } }
      else
        let core1 :=
          { st.core with
              visited := key :: st.core.visited
              statesExplored := st.core.statesExplored + 1 }
        let depth := curSeq.length
        let st1 := progressStep curBoard depth { st with core := core1 }
        let moves := findAllMoves curBoard
        if moves = [] then
          let core2 := admitEntry topK curBoard curSeq st1.core
          { st1 with core := { core2 with moveProgress := truncMP core2.moveProgress depth } }
        else
          let sortedMoves := stableSortJS (moveOrderLE curBoard) moves
          let core2 :=
            { st1.core with
                moveProgress := setMPTotal st1.core.moveProgress depth sortedMoves.length }
          let folded :=
            sortedMoves.foldl (dfsLoopStep (dfsRun topK fuel) curBoard curSeq depth)
              ({ st1 with core := core2 }, false, 0)
          if folded.2.1 then folded.1
          else
            { folded.1 with
                core :=
                  { folded.1.core with
                      moveProgress := truncMP folded.1.core.moveProgress depth } }

/-- Fuel ample for every reachable recursion depth of dfs (each applied move
removes two active cells, so depths stay at or below remainingCount / 2). -/
def solveFuel (board : Board) : Nat := remainingCount board + 1

/-- The record solve returns in the source. -/
structure SolveResult where
  results : List SearchEntry
  states : Nat
  statesSkipped : Nat
  uniqueStates : Nat
deriving Repr, DecidableEq

/-- solve from src/solver.js as a state transformer: initialise the search
state (lastProgressTime = Date.now() is the first clock reading) and run
dfs on the start board with an empty sequence. -/
def solveState (board : Board) (topK : Nat) (hasCb : Bool) (clock : List Int) : SearchState :=
  let core0 : SearchCore := ⟨[], [], none, 0, 0, false, []⟩
  let aux0 : SearchAux := ⟨hasCb, clock.headD 0, clock.tail, []⟩
  dfsRun topK (solveFuel board) board [] ⟨core0, aux0⟩

/-- solve from src/solver.js: the returned record plus the reports handed to
the progress callback. -/
def solve (board : Board) (topK : Nat) (hasCb : Bool) (clock : List Int) :
    SolveResult × List ProgressReport :=
  let final := solveState board topK hasCb clock
  (⟨final.core.topResults, final.core.statesExplored, final.core.statesSkipped,
      final.core.visited.length⟩,
    final.aux.log)

/-- A move sequence each of whose moves is produced by the enumerator on the
board it is applied to: the characterisation of the sequences dfs explores. -/
def validPlayB : Board → List Move → Bool
  | _, [] => true
  | bd, m :: rest => (findAllMoves bd).contains m && validPlayB (applyMove bd m.1 m.2) rest

/-- Replay a move sequence from a board. -/
def replayBoard (bd : Board) (ms : List Move) : Board :=
  ms.foldl (fun b m => applyMove b m.1 m.2) bd

/-- The per-character map of parseBoard, as a partial map: '.' and digits
parse to a cell, every other character parses to nothing. -/
def charMapCode (ch : Char) : Option Int :=
  if ch = '.' then some 0
  else if '1' ≤ ch && ch ≤ '9' then some ((ch.toNat : Int) - 48)
  else none

/-- The parser described by the spec sentence behind C3, for comparison with
parseBoard: it maps '.' to 0, a digit to itself, and any other character
(including blanks) to a sentinel, then pads short rows. -/
def parseBoardClaim (s : String) : Board :=
  ((parseLines s).map (fun l =>
    padRow (l.map (fun ch =>
      if ch = '.' then (0 : Int)
      else if '1' ≤ ch && ch ≤ '9' then ((ch.toNat : Int) - 48)
      else -1)))).flatten

/-- Does the text contain no parsable cell on any retained line? -/
def noParsableCells (s : String) : Bool :=
  (parseLines s).all (fun l => rowCells l = [])

/-- Scenario D board: a single leftover 7 followed by cleared cells. -/
def sevenBoard : Board := [7, 0, 0, 0, 0, 0, 0, 0, 0]

/-- A board on which grouping reorders the unique solve result: see the C1
counterexample below. -/
def regroupBoard : Board := [3, 4, 6, 3, 5, 5, 9, -1, -1]

/-- The unique move sequence solve finds on regroupBoard. -/
def regroupSeq : List Move := [(1, 2), (0, 3), (4, 5)]

/-- A one-row board with the single legal move (0, 1). -/
def oneNineBoard : Board := [1, 9, -1, -1, -1, -1, -1, -1, -1]

/-- A line with characters but no parsable cell. -/
def noCellsText : String := "x!z"

/-- A line whose blank is dropped by parseBoard and whose ten digits overflow
the row width. -/
def mixedText : String := "1 111111111"

/-- A small two-line board text. -/
def demoText : String := "91\n.5"

/-- The board text of spec scenario A. -/
def ninetyOneText : String := "91"

/-- A search state whose solved flag is already set. -/
def solvedStateDemo : SearchState :=
  ⟨⟨[], [], none, 0, 0, true, []⟩, ⟨false, 0, [], []⟩⟩

/-- The dfs invariant behind the solved short-circuit: once solved is set
the ranked list holds a zero-remaining terminal, and while it is not set it
holds none (a zero-remaining admission always sets it). -/
def coreZeroInv (c : SearchCore) : Prop :=
  (c.solved = true → ∃ r ∈ c.topResults, remainingCount r.board = 0) ∧
    (c.solved = false → ∀ r ∈ c.topResults, remainingCount r.board ≠ 0)

/-- The board b with the cells at the positions of S cleared to 0: within a
display segment every played move only zeroes its two endpoints, so segment
boards are of this form. -/
def zeroIdx (b : Board) (S : List Nat) : Board :=
  (List.range b.length).zipWith (fun i v => if i ∈ S then 0 else v) b

/-- The endpoints of a list of moves, in order. -/
def moveEnds (ms : List Move) : List Nat :=
  ms.flatMap (fun m => [m.1, m.2])

/-- Does replaying the moves never remove a row (the board length never
changes)? -/
def playNoRemoval : Board → List Move → Bool
  | _, [] => true
  | bd, m :: rest =>
    decide ((applyMove bd m.1 m.2).length = bd.length) &&
      playNoRemoval (applyMove bd m.1 m.2) rest

/-- Index form of "every 9-cell row of x holds an active cell". -/
def rowActiveIdx (x : Board) : Prop :=
  ∀ r : Nat, r * 9 < x.length →
    ∃ idx, r * 9 ≤ idx ∧ idx < r * 9 + 9 ∧ idx < x.length ∧ x.getD idx 0 > 0

/-- The terminal board the unique ranked result on regroupBoard reaches. -/
def regroupFinal : Board := [0, 0, 0, 0, 0, 0, 9, -1, -1]

/-! ### Helper lemmas about extendBoard -/

theorem exists_sentinel_tail (l : List Int) :
    ∃ r, l = dropTrailingSentinels l ++ r ∧ ∀ v ∈ r, v = -1 := by
  refine ⟨(l.reverse.takeWhile (fun v => decide (v = -1))).reverse, ?_, ?_⟩
  · unfold dropTrailingSentinels
    have hsplit := List.takeWhile_append_dropWhile (fun v => decide (v = -1)) l.reverse
    conv_lhs => rw [← List.reverse_reverse l, ← hsplit]
    rw [List.reverse_append]
  · intro v hv
    rw [List.mem_reverse] at hv
    have := List.mem_takeWhile_imp hv
    simpa using this

theorem filter_pos_dropTrailingSentinels (l : List Int) :
    (dropTrailingSentinels l).filter (fun v => v > 0) = l.filter (fun v => v > 0) := by
  obtain ⟨r, hl, hr⟩ := exists_sentinel_tail l
  conv_rhs => rw [hl]
  rw [List.filter_append]
  have : r.filter (fun v => decide (v > 0)) = [] := by
    rw [List.filter_eq_nil_iff]
    intro a ha
    have := hr a ha
    simp [this]
  rw [this, List.append_nil]

theorem filter_pos_extendBoard (b : Board) :
    (extendBoard b).filter (fun v => v > 0) =
      b.filter (fun v => v > 0) ++ b.filter (fun v => v > 0) := by
  unfold extendBoard
  simp only [List.filter_append]
  rw [filter_pos_dropTrailingSentinels, filter_pos_dropTrailingSentinels]
  have h1 : (b.filter (fun v => decide (v > 0))).filter (fun v => decide (v > 0)) =
      b.filter (fun v => decide (v > 0)) := by
    rw [List.filter_filter]
    congr 1
    funext a
    rw [Bool.and_self]
  have h2 : (List.replicate ((ROW_SIZE - (dropTrailingSentinels (dropTrailingSentinels b) ++
      b.filter (fun v => v > 0)).length % ROW_SIZE) % ROW_SIZE) (-1 : Int)).filter
        (fun v => decide (v > 0)) = [] := by
    rw [List.filter_eq_nil_iff]
    intro a ha
    have := List.eq_of_mem_replicate ha
    simp [this]
  rw [h1, h2, List.append_nil]

/-- C10: for every board, remainingCount (extendBoard b) is exactly twice
remainingCount b: the extension keeps every active digit of b in the
retained prefix and appends one copy of each. -/
theorem c10_remainingCount_extendBoard (b : Board) :
    remainingCount (extendBoard b) = 2 * remainingCount b := by
  unfold remainingCount
  rw [List.countP_eq_length_filter, List.countP_eq_length_filter, filter_pos_extendBoard,
    List.length_append]
  omega

/-- C6: extendBoard never reduces remainingCount, and the active digits of b
appear in extendBoard b in the same relative order (the actives of b are a
sublist of the actives of the extended board). -/
theorem c6_extendBoard_monotone (b : Board) :
    remainingCount b ≤ remainingCount (extendBoard b) ∧
      List.Sublist (b.filter (fun v => v > 0)) ((extendBoard b).filter (fun v => v > 0)) := by
  constructor
  · unfold remainingCount
    rw [List.countP_eq_length_filter, List.countP_eq_length_filter, filter_pos_extendBoard,
      List.length_append]
    omega
  · rw [filter_pos_extendBoard]
    exact List.sublist_append_right _ _

/-- C9 counterexample: extending [7,0,0,0,0,0,0,0,0] keeps the cleared cells
as blockers and appends a second 7, so the result holds two active cells,
not a lone 7 with every other cell a sentinel (which would leave exactly one
active cell). -/
theorem c9_counterexample :
    extendBoard sevenBoard = [7, 0, 0, 0, 0, 0, 0, 0, 0, 7, -1, -1, -1, -1, -1, -1, -1, -1] ∧
      remainingCount (extendBoard sevenBoard) = 2 := by
  constructor
  · rfl
  · rfl

/-- C9 amended: extending [7,0,0,0,0,0,0,0,0] preserves the cleared cells of
the prefix (ending with its 7 at position 0), appends the leftover active 7
after them, and pads with sentinels to a multiple of 9. -/
theorem c9_amended :
    extendBoard sevenBoard = ([7] ++ List.replicate 8 0) ++ ([7] ++ List.replicate 8 (-1)) ∧
      (extendBoard sevenBoard).length % 9 = 0 := by
  constructor
  · rfl
  · rfl

/-! ### Helper lemmas about chunksOfRow, jsSet and counting -/

theorem chunksOfRowAux_congr :
    ∀ (f1 f2 : Nat) (l : List Int), l.length ≤ f1 → l.length ≤ f2 →
      chunksOfRowAux f1 l = chunksOfRowAux f2 l := by
  intro f1
  induction f1 with
  | zero =>
    intro f2 l h1 h2
    have hl : l = [] := List.eq_nil_of_length_eq_zero (by omega)
    subst hl
    cases f2 with
    | zero => rfl
    | succ f2 => simp [chunksOfRowAux]
  | succ f1 ih =>
    intro f2 l h1 h2
    cases f2 with
    | zero =>
      have hl : l = [] := List.eq_nil_of_length_eq_zero (by omega)
      subst hl
      simp [chunksOfRowAux]
    | succ f2 =>
      by_cases hl : l = []
      · subst hl
        simp [chunksOfRowAux]
      · have hp : 0 < l.length := List.length_pos.mpr hl
        simp only [chunksOfRowAux, hl, if_false]
        have hdl : (l.drop ROW_SIZE).length ≤ f1 := by
          simp only [List.length_drop, ROW_SIZE]
          omega
        have hdl2 : (l.drop ROW_SIZE).length ≤ f2 := by
          simp only [List.length_drop, ROW_SIZE]
          omega
        rw [ih f2 (l.drop ROW_SIZE) hdl hdl2]

theorem chunksOfRow_eq (l : List Int) :
    chunksOfRow l = if l = [] then [] else l.take ROW_SIZE :: chunksOfRow (l.drop ROW_SIZE) := by
  unfold chunksOfRow
  by_cases hl : l = []
  · subst hl
    simp [chunksOfRowAux]
  · rw [if_neg hl]
    have h1 : 0 < l.length := List.length_pos.mpr hl
    obtain ⟨n, hn⟩ : ∃ n, l.length = n + 1 := ⟨l.length - 1, by omega⟩
    rw [hn]
    simp only [chunksOfRowAux, hl, if_false]
    have he : chunksOfRowAux n (l.drop ROW_SIZE) =
        chunksOfRowAux (l.drop ROW_SIZE).length (l.drop ROW_SIZE) := by
      apply chunksOfRowAux_congr
      · simp only [List.length_drop, ROW_SIZE]
        omega
      · exact Nat.le_refl _
    rw [he]

theorem chunksOfRow_nil : chunksOfRow [] = [] := by
  rw [chunksOfRow_eq]
  simp

theorem flatten_chunksOfRow (l : List Int) : (chunksOfRow l).flatten = l := by
  rw [chunksOfRow_eq]
  split
  · simp_all
  · rename_i h
    have ih := flatten_chunksOfRow (l.drop ROW_SIZE)
    simp only [List.flatten_cons, ih, List.take_append_drop]
termination_by l.length
decreasing_by
  simp only [List.length_drop]
  rcases l with _ | ⟨a, l⟩
  · simp_all
  · simp only [List.length_cons, ROW_SIZE]
    omega

theorem mem_of_mem_chunksOfRow {l c : List Int} (hc : c ∈ chunksOfRow l) :
    ∀ v ∈ c, v ∈ l := by
  rw [chunksOfRow_eq] at hc
  split at hc
  · simp_all
  · rename_i h
    rcases List.mem_cons.mp hc with h1 | h1
    · subst h1
      intro v hv
      exact List.mem_of_mem_take hv
    · intro v hv
      exact List.mem_of_mem_drop (mem_of_mem_chunksOfRow h1 v hv)
termination_by l.length
decreasing_by
  simp only [List.length_drop]
  rcases l with _ | ⟨a, l⟩
  · simp_all
  · simp only [List.length_cons, ROW_SIZE]
    omega

theorem chunksOfRow_append (l₁ l₂ : List Int) (h : l₁.length % 9 = 0) :
    chunksOfRow (l₁ ++ l₂) = chunksOfRow l₁ ++ chunksOfRow l₂ := by
  by_cases h1 : l₁ = []
  · subst h1
    rw [chunksOfRow_nil]
    simp
  · have hlen : 9 ≤ l₁.length := by
      have : 0 < l₁.length := List.length_pos.mpr h1
      omega
    have hne : l₁ ++ l₂ ≠ [] := by
      simp [h1]
    have ht : (l₁ ++ l₂).take ROW_SIZE = l₁.take ROW_SIZE :=
      List.take_append_of_le_length (by simpa [ROW_SIZE] using hlen)
    have hd : (l₁ ++ l₂).drop ROW_SIZE = l₁.drop ROW_SIZE ++ l₂ :=
      List.drop_append_of_le_length (by simpa [ROW_SIZE] using hlen)
    have ih := chunksOfRow_append (l₁.drop ROW_SIZE) l₂ (by
      simp only [List.length_drop, ROW_SIZE]
      omega)
    rw [chunksOfRow_eq]
    conv_rhs => rw [chunksOfRow_eq]
    simp only [hne, if_false, h1, if_false]
    rw [ht, hd, ih]
    simp
termination_by l₁.length
decreasing_by
  simp only [List.length_drop, ROW_SIZE]
  omega

theorem chunksOfRow_length9 (l : List Int) (h : l.length % 9 = 0) :
    ∀ c ∈ chunksOfRow l, c.length = 9 := by
  by_cases h1 : l = []
  · subst h1
    rw [chunksOfRow_nil]
    simp
  · have hlen : 9 ≤ l.length := by
      have : 0 < l.length := List.length_pos.mpr h1
      omega
    rw [chunksOfRow_eq]
    simp only [h1, if_false]
    intro c hc
    rcases List.mem_cons.mp hc with h2 | h2
    · subst h2
      simp only [List.length_take, ROW_SIZE]
      omega
    · exact chunksOfRow_length9 (l.drop ROW_SIZE) (by
        simp only [List.length_drop, ROW_SIZE]
        omega) c h2
termination_by l.length
decreasing_by
  simp only [List.length_drop, ROW_SIZE]
  omega

theorem chunksOfRow_nonpos_filter {t : List Int} (h : ∀ v ∈ t, v ≤ 0) :
    (chunksOfRow t).filter (fun row => row.any (fun v => v > 0)) = [] := by
  rw [List.filter_eq_nil_iff]
  intro c hc hany
  rw [List.any_eq_true] at hany
  obtain ⟨v, hv, hvp⟩ := hany
  have h1 := h v (mem_of_mem_chunksOfRow hc v hv)
  simp only [decide_eq_true_eq] at hvp
  omega

theorem length_flatten_const9 {α : Type} {L : List (List α)} (h : ∀ c ∈ L, c.length = 9) :
    L.flatten.length = 9 * L.length := by
  induction L with
  | nil => simp
  | cons c L ih =>
    simp only [List.flatten_cons, List.length_append, List.length_cons]
    rw [h c (List.mem_cons_self c L), ih (fun d hd => h d (List.mem_cons_of_mem c hd))]
    ring

theorem countP_flatten_filter_any (p : Int → Bool) (L : List (List Int)) :
    ((L.filter (fun c => c.any p)).flatten).countP p = L.flatten.countP p := by
  induction L with
  | nil => simp
  | cons c L ih =>
    by_cases hc : c.any p = true
    · simp only [List.filter_cons, hc, if_true, List.flatten_cons, List.countP_append, ih]
    · simp only [List.filter_cons, hc, Bool.false_eq_true, if_false, List.flatten_cons,
        List.countP_append, ih]
      have : c.countP p = 0 := by
        rw [List.countP_eq_zero]
        intro a ha hpa
        rw [List.any_eq_true] at hc
        exact hc ⟨a, ha, hpa⟩
      omega

theorem countP_set_aux (p : Int → Bool) :
    ∀ (l : List Int) (k : Nat) (x : Int), k < l.length →
      (l.set k x).countP p + (if p (l.getD k 0) then 1 else 0) =
        l.countP p + (if p x then 1 else 0) := by
  intro l
  induction l with
  | nil => intro k x hk; simp at hk
  | cons a t ih =>
    intro k x hk
    cases k with
    | zero =>
      simp only [List.set_cons_zero, List.countP_cons, List.getD_cons_zero]
      omega
    | succ k =>
      simp only [List.set_cons_succ, List.countP_cons, List.getD_cons_succ]
      have := ih k x (by simpa using hk)
      omega

theorem getD_set_ne {l : List Int} {i j : Nat} (h : i ≠ j) (x : Int) :
    (l.set i x).getD j 0 = l.getD j 0 := by
  simp only [List.getD_eq_getElem?_getD, List.getElem?_set_ne h]

/-! ### applyMove claims -/

/-- C4: for every board and every move legal under the pairing and
visibility rules (isMoveValidOnBoard), applying the move leaves exactly two
fewer active cells: both positions held active digits and row compaction
only discards rows without active cells. -/
theorem c4_applyMove_remainingCount (b : Board) (m : Move)
    (h : isMoveValidOnBoard b m = true) :
    remainingCount (applyMove b m.1 m.2) + 2 = remainingCount b := by
  unfold isMoveValidOnBoard at h
  split at h
  · exact absurd h (by simp)
  · rename_i hrange
    simp only [Bool.or_eq_true, decide_eq_true_eq, not_or, not_le] at hrange
    obtain ⟨hi, hj⟩ := hrange
    rw [Bool.and_eq_true] at h
    obtain ⟨hpair, hpath⟩ := h
    have hne : m.1 ≠ m.2 := by
      unfold hasClearPath at hpath
      split at hpath
      · exact absurd hpath (by simp)
      · rename_i hx
        exact hx
    have hv1 : 0 < b.getD m.1 0 := by
      unfold isValidPair at hpair
      simp only [] at hpair
      split at hpair
      · exact absurd hpair (by simp)
      · rename_i hnp
        simp only [Bool.or_eq_true, not_or] at hnp
        have := hnp.1
        rw [List.getD_eq_getElem?_getD, List.getElem?_eq_getElem hi]
        by_contra hx
        apply this
        have hgl : b.get? m.1 = some (b[m.1]) := by
          rw [List.get?_eq_getElem?, List.getElem?_eq_getElem hi]
        rw [hgl]
        simp only [jsNonPos, decide_eq_true_eq]
        simp only [List.getElem?_eq_getElem hi, Option.getD_some, not_lt] at hx
        exact hx
    have hv2 : 0 < b.getD m.2 0 := by
      unfold isValidPair at hpair
      simp only [] at hpair
      split at hpair
      · exact absurd hpair (by simp)
      · rename_i hnp
        simp only [Bool.or_eq_true, not_or] at hnp
        have := hnp.2
        rw [List.getD_eq_getElem?_getD, List.getElem?_eq_getElem hj]
        by_contra hx
        apply this
        have hgl : b.get? m.2 = some (b[m.2]) := by
          rw [List.get?_eq_getElem?, List.getElem?_eq_getElem hj]
        rw [hgl]
        simp only [jsNonPos, decide_eq_true_eq]
        simp only [List.getElem?_eq_getElem hj, Option.getD_some, not_lt] at hx
        exact hx
    unfold applyMove
    simp only []
    have e1 : jsSet b m.1 0 = b.set m.1 0 := by
      unfold jsSet
      rw [if_pos hi]
    have e2 : jsSet (b.set m.1 0) m.2 0 = (b.set m.1 0).set m.2 0 := by
      unfold jsSet
      rw [if_pos (by simpa using hj)]
    rw [e1, e2]
    unfold remainingCount
    rw [countP_flatten_filter_any, flatten_chunksOfRow]
    have c2 := countP_set_aux (fun v => decide (v > 0)) (b.set m.1 0) m.2 0 (by simpa using hj)
    have c1 := countP_set_aux (fun v => decide (v > 0)) b m.1 0 hi
    rw [getD_set_ne hne] at c2
    simp only [decide_eq_true_eq] at c1 c2
    rw [if_pos hv2] at c2
    rw [if_pos hv1] at c1
    simp only [show ¬((0 : Int) > 0) by omega, if_false] at c1 c2
    omega

/-- C4 witness: the single move on the board [1,9,-1,...] is legal and
removes its two active cells. -/
theorem c4_witness :
    isMoveValidOnBoard oneNineBoard (0, 1) = true ∧
      remainingCount (applyMove oneNineBoard 0 1) + 2 = remainingCount oneNineBoard :=
  ⟨by decide, c4_applyMove_remainingCount oneNineBoard (0, 1) (by decide)⟩

theorem jsSet_zero_split (u t : List Int) (k : Nat) (ht : ∀ v ∈ t, v ≤ 0) :
    ∃ u2 t2, jsSet (u ++ t) k 0 = u2 ++ t2 ∧ u2.length = u.length ∧ (∀ v ∈ t2, v ≤ 0) ∧
      (u.length ≤ k → u2 = u) := by
  unfold jsSet
  by_cases hk : k < (u ++ t).length
  · rw [if_pos hk]
    by_cases hku : k < u.length
    · refine ⟨u.set k 0, t, List.set_append_left _ _ hku, by simp, ht, ?_⟩
      intro hle
      omega
    · rw [List.set_append_right _ _ (by omega)]
      refine ⟨u, t.set (k - u.length) 0, rfl, rfl, ?_, fun _ => rfl⟩
      intro v hv
      rcases List.mem_or_eq_of_mem_set hv with h1 | h1
      · exact ht v h1
      · omega
  · rw [if_neg hk]
    refine ⟨u, t ++ (List.replicate (k - (u ++ t).length) undefCell ++ [0]), by
      simp [List.append_assoc], rfl, ?_, fun _ => rfl⟩
    intro v hv
    rcases List.mem_append.mp hv with h1 | h1
    · exact ht v h1
    · rcases List.mem_append.mp h1 with h2 | h2
      · have := List.eq_of_mem_replicate h2
        subst this
        unfold undefCell
        omega
      · simp only [List.mem_singleton] at h2
        omega

theorem applyMove_split (b : Board) (i j : Nat) :
    ∃ u t, jsSet (jsSet b i 0) j 0 = u ++ t ∧ u.length = b.length ∧ (∀ v ∈ t, v ≤ 0) ∧
      (b.length ≤ i → b.length ≤ j → u = b) := by
  obtain ⟨u1, t1, e1, l1, h1, p1⟩ := jsSet_zero_split b [] i (by simp)
  rw [List.append_nil] at e1
  obtain ⟨u2, t2, e2, l2, h2, p2⟩ := jsSet_zero_split u1 t1 j h1
  rw [← e1] at e2
  refine ⟨u2, t2, e2, by omega, h2, fun hbi hbj => ?_⟩
  have q1 : u1 = b := p1 hbi
  have q2 : u2 = u1 := p2 (by omega)
  rw [q2, q1]

theorem applyMove_eq_kept (b : Board) (i j : Nat) (h9 : b.length % 9 = 0) :
    ∃ u, u.length = b.length ∧
      applyMove b i j = ((chunksOfRow u).filter (fun row => row.any (fun v => v > 0))).flatten ∧
      (b.length ≤ i → b.length ≤ j → u = b) := by
  obtain ⟨u, t, e, lu, htt, hub⟩ := applyMove_split b i j
  refine ⟨u, lu, ?_, hub⟩
  unfold applyMove
  simp only []
  rw [e, chunksOfRow_append u t (by omega), List.filter_append, chunksOfRow_nonpos_filter htt,
    List.append_nil]

/-- C5: for every board whose length is a multiple of 9 and every position
pair (legal or not, in range or not), the board applyMove returns has length
a multiple of 9 and no longer than the input: only whole 9-cell rows are
kept, and only rows of the original extent can contain an active cell. -/
theorem c5_applyMove_length (b : Board) (i j : Nat) (h : b.length % 9 = 0) :
    (applyMove b i j).length % 9 = 0 ∧ (applyMove b i j).length ≤ b.length := by
  obtain ⟨u, lu, e, _⟩ := applyMove_eq_kept b i j h
  have h9u : u.length % 9 = 0 := by omega
  have hall : ∀ c ∈ (chunksOfRow u).filter (fun row => row.any (fun v => v > 0)),
      c.length = 9 := by
    intro c hc
    exact chunksOfRow_length9 u h9u c (List.mem_of_mem_filter hc)
  have hlen : (applyMove b i j).length =
      9 * ((chunksOfRow u).filter (fun row => row.any (fun v => v > 0))).length := by
    rw [e]
    exact length_flatten_const9 hall
  have hu : u.length = 9 * (chunksOfRow u).length := by
    conv_lhs => rw [← flatten_chunksOfRow u]
    exact length_flatten_const9 (chunksOfRow_length9 u h9u)
  have hle : ((chunksOfRow u).filter (fun row => row.any (fun v => v > 0))).length ≤
      (chunksOfRow u).length := List.length_filter_le _ _
  constructor
  · omega
  · omega

/-- C5 witness: at an in-range and an out-of-range pair on a one-row board. -/
theorem c5_witness :
    (oneNineBoard.length % 9 = 0 ∧
        (applyMove oneNineBoard 0 27).length % 9 = 0 ∧
        (applyMove oneNineBoard 0 27).length ≤ oneNineBoard.length) ∧
      ((applyMove oneNineBoard 0 1).length % 9 = 0 ∧
        (applyMove oneNineBoard 0 1).length ≤ oneNineBoard.length) :=
  ⟨⟨by decide, c5_applyMove_length oneNineBoard 0 27 (by decide)⟩,
    c5_applyMove_length oneNineBoard 0 1 (by decide)⟩

/-! ### parseBoard claims -/

theorem rowCells_eq_filterMap (cs : List Char) : rowCells cs = cs.filterMap charMapCode := by
  suffices key : ∀ (ds : List Char) (acc : List Int),
      ds.foldl (fun row ch =>
        if ch = '.' then row ++ [(0 : Int)]
        else if '1' ≤ ch && ch ≤ '9' then row ++ [((ch.toNat : Int) - 48)]
        else row) acc = acc ++ ds.filterMap charMapCode by
    unfold rowCells
    rw [key]
    simp
  intro ds
  induction ds with
  | nil => intro acc; simp
  | cons c ds ih =>
    intro acc
    rw [List.foldl_cons, ih, List.filterMap_cons]
    unfold charMapCode
    by_cases h1 : c = '.'
    · rw [if_pos h1, if_pos h1]
      simp
    · rw [if_neg h1, if_neg h1]
      by_cases h2 : ('1' ≤ c && c ≤ '9') = true
      · rw [if_pos h2, if_pos h2]
        simp
      · rw [if_neg h2, if_neg h2]

/-- C3 counterexample: on the line "1 111111111" parseBoard drops the blank
instead of mapping it to a sentinel (so it differs from the parser the claim
describes), and the ten parsed digits make the board length 10, not a
multiple of 9. -/
theorem c3_counterexample :
    parseBoard mixedText ≠ parseBoardClaim mixedText ∧
      (parseBoard mixedText).length % 9 ≠ 0 := by
  constructor
  · decide
  · decide

/-- C3 amended: parseBoard maps '.' to 0 and digits to themselves but drops
every other character (blanks included) instead of recording a sentinel for
it; rows shorter than 9 are padded with sentinels and concatenated in order,
and the board length is a multiple of 9 provided every retained line parses
to at most 9 cells. -/
theorem c3_parseBoard_amended :
    (∀ cs : List Char, rowCells cs = cs.filterMap charMapCode) ∧
      ∀ s : String, (∀ l ∈ parseLines s, (rowCells l).length ≤ 9) →
        (parseBoard s).length % 9 = 0 := by
  constructor
  · exact rowCells_eq_filterMap
  · intro s hs
    unfold parseBoard
    have hall : ∀ c ∈ (parseLines s).map (fun l => padRow (rowCells l)), c.length = 9 := by
      intro c hc
      rw [List.mem_map] at hc
      obtain ⟨l, hl, rfl⟩ := hc
      unfold padRow
      simp only [List.length_append, List.length_replicate]
      have := hs l hl
      unfold ROW_SIZE
      omega
    rw [length_flatten_const9 hall]
    simp [Nat.mul_mod_right]

/-- C3 witness: a two-line text whose lines parse to at most 9 cells, giving
a board length that is a multiple of 9. -/
theorem c3_witness :
    (∀ l ∈ parseLines demoText, (rowCells l).length ≤ 9) ∧
      (parseBoard demoText).length % 9 = 0 :=
  ⟨by decide, c3_parseBoard_amended.2 demoText (by decide)⟩

/-! ### Error-handling claims -/

/-- C2 counterexample: neither operation can fail. parseBoard returns the
empty board for an empty text and a sentinel-only board for a line with no
parsable cell, and applyMove on the out-of-range pair (0, 27) of a 9-cell
board returns an ordinary board; no InvalidInput condition exists in the
code. -/
theorem c2_counterexample :
    parseBoard emptyText = [] ∧
      parseBoard noCellsText = List.replicate 9 (-1) ∧
      applyMove oneNineBoard 0 27 = [0, 9, -1, -1, -1, -1, -1, -1, -1] := by
  refine ⟨by decide, by decide, by decide⟩

theorem parseBoard_all_sentinels (L : List (List Char)) (h : ∀ l ∈ L, rowCells l = []) :
    (L.map (fun l => padRow (rowCells l))).flatten =
      List.replicate (9 * L.length) (-1) := by
  induction L with
  | nil => simp
  | cons l L ih =>
    simp only [List.map_cons, List.flatten_cons]
    rw [h l (List.mem_cons_self l L), ih (fun d hd => h d (List.mem_cons_of_mem l hd))]
    unfold padRow
    simp only [List.length_nil, List.nil_append, Nat.sub_zero, List.length_cons]
    rw [show 9 * (L.length + 1) = 9 + 9 * L.length by ring, List.replicate_add]
    rfl

/-- C2 amended: parseBoard and applyMove are total and never signal an
error. On a text whose lines hold no parsable cell, parseBoard returns the
all-sentinel board of 9 cells per retained line (the empty board for an
empty text); applyMove with both positions out of the live range of a
well-formed board returns the board itself minus its rows without active
cells, not a corrupt board. -/
theorem c2_no_failure_amended :
    (∀ s : String, noParsableCells s = true →
        parseBoard s = List.replicate (9 * (parseLines s).length) (-1)) ∧
      ∀ (b : Board) (i j : Nat), b.length % 9 = 0 → b.length ≤ i → b.length ≤ j →
        applyMove b i j =
          ((chunksOfRow b).filter (fun row => row.any (fun v => v > 0))).flatten := by
  constructor
  · intro s hs
    unfold parseBoard
    unfold noParsableCells at hs
    rw [List.all_eq_true] at hs
    apply parseBoard_all_sentinels
    intro l hl
    have := hs l hl
    simpa using this
  · intro b i j h9 hi hj
    obtain ⟨u, lu, e, hub⟩ := applyMove_eq_kept b i j h9
    rw [e, hub hi hj]

/-- C2 witness: the amended characterisation at a concrete unparsable text
and a concrete out-of-range application. -/
theorem c2_witness :
    (noParsableCells noCellsText = true ∧
        parseBoard noCellsText = List.replicate (9 * (parseLines noCellsText).length) (-1)) ∧
      (oneNineBoard.length % 9 = 0 ∧
        applyMove oneNineBoard 10 27 =
          ((chunksOfRow oneNineBoard).filter (fun row => row.any (fun v => v > 0))).flatten) :=
  ⟨⟨by decide, c2_no_failure_amended.1 noCellsText (by decide)⟩,
    ⟨by decide, c2_no_failure_amended.2 oneNineBoard 10 27 (by decide) (by decide) (by decide)⟩⟩

/-! ### Stable sort lemmas -/

theorem orderedInsert_perm {α : Type} (le : α → α → Bool) (a : α) (l : List α) :
    List.Perm (orderedInsert le a l) (a :: l) := by
  induction l with
  | nil => exact List.Perm.refl _
  | cons b bs ih =>
    simp only [orderedInsert]
    split
    · exact List.Perm.refl _
    · exact (List.Perm.cons b ih).trans (List.Perm.swap a b bs)

theorem stableSortJS_perm {α : Type} (le : α → α → Bool) (l : List α) :
    List.Perm (stableSortJS le l) l := by
  have key : ∀ (xs acc : List α),
      List.Perm (xs.foldl (fun acc x => orderedInsert le x acc) acc) (acc ++ xs) := by
    intro xs
    induction xs with
    | nil => intro acc; simp
    | cons x xs ih =>
      intro acc
      simp only [List.foldl_cons]
      refine (ih (orderedInsert le x acc)).trans ?_
      have h1 : List.Perm (orderedInsert le x acc ++ xs) ((x :: acc) ++ xs) :=
        List.Perm.append_right xs (orderedInsert_perm le x acc)
      refine h1.trans ?_
      have h2 : (x :: acc) ++ xs = x :: (acc ++ xs) := rfl
      rw [h2]
      exact List.perm_middle.symm
  have := key l []
  simpa using this

theorem pairwise_orderedInsert {α : Type} (le : α → α → Bool)
    (htotal : ∀ a b, le a b = true ∨ le b a = true)
    (htrans : ∀ a b c, le a b = true → le b c = true → le a c = true)
    (a : α) (l : List α) (hl : List.Pairwise (fun x y => le x y = true) l) :
    List.Pairwise (fun x y => le x y = true) (orderedInsert le a l) := by
  induction l with
  | nil => simp [orderedInsert]
  | cons b bs ih =>
    rw [List.pairwise_cons] at hl
    obtain ⟨hb, hbs⟩ := hl
    simp only [orderedInsert]
    split
    · rename_i hcond
      rw [Bool.and_eq_true] at hcond
      rw [List.pairwise_cons]
      constructor
      · intro y hy
        rcases List.mem_cons.mp hy with rfl | hy2
        · exact hcond.1
        · exact htrans a b y hcond.1 (hb y hy2)
      · rw [List.pairwise_cons]
        exact ⟨hb, hbs⟩
    · rename_i hcond
      rw [List.pairwise_cons]
      constructor
      · intro y hy
        have hmem := (orderedInsert_perm le a bs).mem_iff.mp hy
        rcases List.mem_cons.mp hmem with heq | hy2
        · rw [heq]
          by_cases hba : le b a = true
          · exact hba
          · by_cases hab : le a b = true
            · exfalso
              apply hcond
              simp only [Bool.not_eq_true] at hba
              simp [hab, hba]
            · rcases htotal a b with h2 | h2
              · exact absurd h2 hab
              · exact h2
        · exact hb y hy2
      · exact ih hbs

theorem pairwise_stableSortJS {α : Type} (le : α → α → Bool)
    (htotal : ∀ a b, le a b = true ∨ le b a = true)
    (htrans : ∀ a b c, le a b = true → le b c = true → le a c = true)
    (l : List α) : List.Pairwise (fun x y => le x y = true) (stableSortJS le l) := by
  have key : ∀ (xs acc : List α), List.Pairwise (fun x y => le x y = true) acc →
      List.Pairwise (fun x y => le x y = true)
        (xs.foldl (fun acc x => orderedInsert le x acc) acc) := by
    intro xs
    induction xs with
    | nil => intro acc h; exact h
    | cons x xs ih =>
      intro acc h
      simp only [List.foldl_cons]
      exact ih _ (pairwise_orderedInsert le htotal htrans x acc h)
  exact key l [] List.Pairwise.nil

theorem resultLE_total (a b : SearchEntry) : resultLE a b = true ∨ resultLE b a = true := by
  unfold resultLE
  simp only [Bool.or_eq_true, Bool.and_eq_true, decide_eq_true_eq]
  omega

theorem resultLE_trans (a b c : SearchEntry) (h1 : resultLE a b = true)
    (h2 : resultLE b c = true) : resultLE a c = true := by
  unfold resultLE at h1 h2 ⊢
  simp only [Bool.or_eq_true, Bool.and_eq_true, decide_eq_true_eq] at h1 h2 ⊢
  omega

/-! ### The solved short-circuit -/

theorem progressStep_core (bd : Board) (d : Nat) (st : SearchState) :
    (progressStep bd d st).core = st.core := by
  unfold progressStep
  split
  · dsimp only
    split
    · rfl
    · rfl
  · rfl

theorem zero_mem_truncK (k : Nat) (hk : 1 ≤ k) (L : List SearchEntry)
    (hpw : List.Pairwise (fun x y => resultLE x y = true) L)
    (z : SearchEntry) (hz : z ∈ L) (hz0 : remainingCount z.board = 0) :
    ∃ r ∈ (if k < L.length then L.dropLast else L), remainingCount r.board = 0 := by
  split
  · rename_i hlen
    cases L with
    | nil => simp at hz
    | cons x xs =>
      have hx0 : remainingCount x.board = 0 := by
        rcases List.mem_cons.mp hz with heq | hz2
        · rw [← heq]
          exact hz0
        · rw [List.pairwise_cons] at hpw
          have hle := hpw.1 z hz2
          unfold resultLE at hle
          simp only [Bool.or_eq_true, Bool.and_eq_true, decide_eq_true_eq] at hle
          omega
      refine ⟨x, ?_, hx0⟩
      cases xs with
      | nil => simp at hlen; omega
      | cons y ys =>
        rw [List.dropLast_cons₂]
        exact List.mem_cons_self _ _
  · exact ⟨z, hz, hz0⟩

theorem admitEntry_inv (k : Nat) (hk : 1 ≤ k) (bd : Board) (seq : List Move)
    (c : SearchCore) (hJ : coreZeroInv c) : coreZeroInv (admitEntry k bd seq c) := by
  obtain ⟨hJ1, hJ2⟩ := hJ
  unfold admitEntry
  dsimp only
  split
  · have hpw := pairwise_stableSortJS resultLE resultLE_total resultLE_trans
      (c.topResults ++ [⟨seq, bd⟩])
    have hperm := stableSortJS_perm resultLE (c.topResults ++ [⟨seq, bd⟩])
    constructor
    · intro hs
      simp only at hs
      by_cases h0 : remainingCount bd = 0
      · have hmem : (⟨seq, bd⟩ : SearchEntry) ∈
            stableSortJS resultLE (c.topResults ++ [⟨seq, bd⟩]) := by
          rw [hperm.mem_iff]
          exact List.mem_append_right _ (List.mem_singleton.mpr rfl)
        simpa using zero_mem_truncK k hk _ hpw ⟨seq, bd⟩ hmem h0
      · rw [if_neg h0] at hs
        obtain ⟨z, hzmem, hz0⟩ := hJ1 hs
        have hmem : z ∈ stableSortJS resultLE (c.topResults ++ [⟨seq, bd⟩]) := by
          rw [hperm.mem_iff]
          exact List.mem_append_left _ hzmem
        simpa using zero_mem_truncK k hk _ hpw z hmem hz0
    · intro hs
      simp only at hs
      by_cases h0 : remainingCount bd = 0
      · rw [if_pos h0] at hs
        exact absurd hs (by simp)
      · rw [if_neg h0] at hs
        intro r hr
        simp only at hr
        have hrL : r ∈ stableSortJS resultLE (c.topResults ++ [⟨seq, bd⟩]) := by
          split at hr
          · exact (List.dropLast_sublist _).subset hr
          · exact hr
        have := hperm.mem_iff.mp hrL
        rcases List.mem_append.mp this with h1 | h1
        · exact hJ2 hs r h1
        · rw [List.mem_singleton] at h1
          rw [h1]
          exact h0
  · exact ⟨hJ1, hJ2⟩

theorem coreZeroInv_of_eq (c c2 : SearchCore) (h : coreZeroInv c)
    (ht : c2.topResults = c.topResults) (hsv : c2.solved = c.solved) : coreZeroInv c2 := by
  unfold coreZeroInv at h ⊢
  rw [ht, hsv]
  exact h

theorem dfsRun_inv (k : Nat) (hk : 1 ≤ k) :
    ∀ (fuel : Nat) (bd : Board) (seq : List Move) (st : SearchState),
      coreZeroInv st.core → coreZeroInv (dfsRun k fuel bd seq st).core := by
  intro fuel
  induction fuel with
  | zero => intro bd seq st h; exact h
  | succ fuel ih =>
    intro bd seq st h
    simp only [dfsRun]
    split
    · exact h
    · split
      · exact coreZeroInv_of_eq _ _ h rfl rfl
      · split
        · rw [progressStep_core]
          apply coreZeroInv_of_eq _ _ ?inner rfl rfl
          case inner =>
            exact admitEntry_inv k hk bd seq _ (coreZeroInv_of_eq _ _ h rfl rfl)
        · have hfold : ∀ (ms : List Move) (acc : SearchState × Bool × Nat),
              coreZeroInv acc.1.core →
              coreZeroInv ((ms.foldl (dfsLoopStep (dfsRun k fuel) bd seq seq.length) acc).1.core) := by
            intro ms
            induction ms with
            | nil => intro acc hacc; exact hacc
            | cons mv ms ihm =>
              intro acc hacc
              rw [List.foldl_cons]
              apply ihm
              unfold dfsLoopStep
              split
              · exact hacc
              · dsimp only
                apply ih
                exact coreZeroInv_of_eq _ _ hacc rfl rfl
          split
          · apply hfold
            rw [progressStep_core]
            exact coreZeroInv_of_eq _ _ h rfl rfl
          · apply coreZeroInv_of_eq _ _ ?fold rfl rfl
            case fold =>
              apply hfold
              rw [progressStep_core]
              exact coreZeroInv_of_eq _ _ h rfl rfl

/-- C8: the solved short-circuit of dfs. Once the solved flag is set, dfs is
inert: it returns its state unchanged at every recursion depth (each frame
checks the flag on entry and before every further child), so no further
board state is explored after the flag is set. Moreover, whenever a solve
run ends with the flag set and topK is at least 1, its ranked result list
contains a zero-remaining terminal — the first one reached, since reaching
it set the flag and stopped the search (a best-effort rule, not a
shortest-solution search). -/
theorem c8_solved_stops_search :
    (∀ (k fuel : Nat) (bd : Board) (seq : List Move) (st : SearchState),
        st.core.solved = true → dfsRun k fuel bd seq st = st) ∧
      ∀ (b : Board) (k : Nat) (cb : Bool) (clock : List Int), 1 ≤ k →
        (solveState b k cb clock).core.solved = true →
        ∃ r ∈ (solve b k cb clock).1.results, remainingCount r.board = 0 := by
  constructor
  · intro k fuel bd seq st hs
    cases fuel with
    | zero => rfl
    | succ fuel => simp [dfsRun, hs]
  · intro b k cb clock hk hs
    have h0 : coreZeroInv (⟨⟨[], [], none, 0, 0, false, []⟩,
        ⟨cb, clock.headD 0, clock.tail, []⟩⟩ : SearchState).core := by
      constructor
      · intro hx
        exact absurd hx (by simp)
      · intro _ r hr
        exact absurd hr (by simp)
    have := (dfsRun_inv k hk (solveFuel b) b [] _ h0).1
    exact this hs

/-- C8 witness: dfs leaves an already-solved state untouched, and solving
the scenario-A board "91" sets the flag with a zero-remaining result kept. -/
theorem c8_witness :
    (solvedStateDemo.core.solved = true ∧
        dfsRun 20 5 oneNineBoard [] solvedStateDemo = solvedStateDemo) ∧
      ((1 : Nat) ≤ 20 ∧ (solveState (parseBoard ninetyOneText) 20 false []).core.solved = true ∧
        ∃ r ∈ (solve (parseBoard ninetyOneText) 20 false []).1.results,
          remainingCount r.board = 0) :=
  ⟨⟨by decide, c8_solved_stops_search.1 20 5 oneNineBoard [] solvedStateDemo (by decide)⟩,
    ⟨by decide, by decide,
      c8_solved_stops_search.2 (parseBoard ninetyOneText) 20 false [] (by decide) (by decide)⟩⟩

/-! ### Search determinism -/

theorem dfsRun_core_congr (k : Nat) :
    ∀ (fuel : Nat) (bd : Board) (seq : List Move) (s1 s2 : SearchState),
      s1.core = s2.core → (dfsRun k fuel bd seq s1).core = (dfsRun k fuel bd seq s2).core := by
  intro fuel
  induction fuel with
  | zero => intro bd seq s1 s2 h; exact h
  | succ fuel ih =>
    intro bd seq s1 s2 h
    simp only [dfsRun]
    by_cases hs : s2.core.solved = true
    · rw [if_pos hs, if_pos (by rw [h]; exact hs)]
      exact h
    · rw [if_neg hs, if_neg (by rw [h]; exact hs)]
      by_cases hv : s2.core.visited.contains (boardKey bd) = true
      · rw [if_pos hv, if_pos (by rw [h]; exact hv)]
        dsimp only
        rw [h]
      · rw [if_neg hv, if_neg (by rw [h]; exact hv)]
        set t1 := progressStep bd seq.length
          { s1 with core :=
              { s1.core with
                  visited := boardKey bd :: s1.core.visited
                  statesExplored := s1.core.statesExplored + 1 } } with ht1
        set t2 := progressStep bd seq.length
          { s2 with core :=
              { s2.core with
                  visited := boardKey bd :: s2.core.visited
                  statesExplored := s2.core.statesExplored + 1 } } with ht2
        have hct : t1.core = t2.core := by
          rw [ht1, ht2, progressStep_core, progressStep_core]
          dsimp only
          rw [h]
        split
        · rw [hct]
        · have hfold : ∀ (ms : List Move) (a1 a2 : SearchState × Bool × Nat),
              a1.1.core = a2.1.core → a1.2 = a2.2 →
              ((ms.foldl (dfsLoopStep (dfsRun k fuel) bd seq seq.length) a1).1.core =
                  (ms.foldl (dfsLoopStep (dfsRun k fuel) bd seq seq.length) a2).1.core ∧
                (ms.foldl (dfsLoopStep (dfsRun k fuel) bd seq seq.length) a1).2 =
                  (ms.foldl (dfsLoopStep (dfsRun k fuel) bd seq seq.length) a2).2) := by
            intro ms
            induction ms with
            | nil => intro a1 a2 hcc hee; exact ⟨hcc, hee⟩
            | cons mv ms ihm =>
              intro a1 a2 hcc hee
              rw [List.foldl_cons, List.foldl_cons]
              apply ihm
              · unfold dfsLoopStep
                by_cases hsv : a2.1.core.solved = true
                · rw [if_pos hsv, if_pos (by rw [hcc]; exact hsv)]
                  exact hcc
                · rw [if_neg hsv, if_neg (by rw [hcc]; exact hsv)]
                  dsimp only
                  apply ih
                  dsimp only
                  rw [hcc, hee]
              · unfold dfsLoopStep
                by_cases hsv : a2.1.core.solved = true
                · rw [if_pos hsv, if_pos (by rw [hcc]; exact hsv)]
                  dsimp only
                  rw [hee]
                · rw [if_neg hsv, if_neg (by rw [hcc]; exact hsv)]
                  dsimp only
                  rw [hee]
          obtain ⟨hc, he⟩ := hfold (stableSortJS (moveOrderLE bd) (findAllMoves bd))
            ({ t1 with core :=
                { t1.core with
                    moveProgress := setMPTotal t1.core.moveProgress seq.length
                      (stableSortJS (moveOrderLE bd) (findAllMoves bd)).length } }, false, 0)
            ({ t2 with core :=
                { t2.core with
                    moveProgress := setMPTotal t2.core.moveProgress seq.length
                      (stableSortJS (moveOrderLE bd) (findAllMoves bd)).length } }, false, 0)
            (by dsimp only; rw [hct]) rfl
          have hflag := congrArg Prod.fst he
          dsimp only at hflag
          by_cases hb : ((stableSortJS (moveOrderLE bd) (findAllMoves bd)).foldl
              (dfsLoopStep (dfsRun k fuel) bd seq seq.length)
              ({ t2 with core :=
                  { t2.core with
                      moveProgress := setMPTotal t2.core.moveProgress seq.length
                        (stableSortJS (moveOrderLE bd) (findAllMoves bd)).length } },
                false, 0)).2.1 = true
          · rw [if_pos hb, if_pos (by rw [hflag]; exact hb)]
            exact hc
          · rw [if_neg hb, if_neg (by rw [hflag]; exact hb)]
            dsimp only
            rw [hc]

/-- C7: solve is deterministic. Its result record (ranked results, state
counts) depends only on the board and topK: two invocations with any
callback presence and any streams of Date.now() readings return identical
records, since the progress block only observes the search state. -/
theorem c7_solve_deterministic (b : Board) (k : Nat) (cb1 cb2 : Bool) (c1 c2 : List Int) :
    (solve b k cb1 c1).1 = (solve b k cb2 c2).1 := by
  have hcore : (solveState b k cb1 c1).core = (solveState b k cb2 c2).core := by
    unfold solveState
    exact dfsRun_core_congr k (solveFuel b) b [] _ _ rfl
  unfold solve
  dsimp only
  rw [hcore]

/-! ### Boards as zeroed index sets -/

theorem zeroIdx_length (b : Board) (S : List Nat) : (zeroIdx b S).length = b.length := by
  unfold zeroIdx
  simp

theorem zeroIdx_getElem? (b : Board) (S : List Nat) (idx : Nat) :
    (zeroIdx b S)[idx]? = (b[idx]?).map (fun v => if idx ∈ S then 0 else v) := by
  unfold zeroIdx
  rw [List.getElem?_zipWith]
  by_cases h : idx < b.length
  · rw [List.getElem?_range (by simpa using h), List.getElem?_eq_getElem h]
    rfl
  · rw [List.getElem?_eq_none (by simpa using h), List.getElem?_eq_none (by omega)]
    rfl

theorem zeroIdx_getD (b : Board) (S : List Nat) (idx : Nat) :
    (zeroIdx b S).getD idx 0 =
      if idx < b.length then (if idx ∈ S then 0 else b.getD idx 0) else 0 := by
  rw [List.getD_eq_getElem?_getD, zeroIdx_getElem?]
  by_cases h : idx < b.length
  · rw [List.getElem?_eq_getElem h]
    simp [h, List.getD_eq_getElem?_getD, List.getElem?_eq_getElem h]
  · rw [List.getElem?_eq_none (by omega)]
    simp [h]

theorem zeroIdx_nil (b : Board) : zeroIdx b [] = b := by
  apply List.ext_getElem?
  intro i
  rw [zeroIdx_getElem?]
  simp

theorem zeroIdx_congr (b : Board) (S₁ S₂ : List Nat) (h : ∀ i, i ∈ S₁ ↔ i ∈ S₂) :
    zeroIdx b S₁ = zeroIdx b S₂ := by
  apply List.ext_getElem?
  intro i
  rw [zeroIdx_getElem?, zeroIdx_getElem?]
  by_cases hi : i ∈ S₁
  · simp [hi, (h i).mp hi]
  · have hi2 : i ∉ S₂ := fun hx => hi ((h i).mpr hx)
    simp [hi, hi2]

theorem set_zeroIdx (b : Board) (S : List Nat) (i : Nat) (hi : i < b.length) :
    (zeroIdx b S).set i 0 = zeroIdx b (i :: S) := by
  apply List.ext_getElem?
  intro j
  by_cases hij : i = j
  · subst hij
    rw [List.getElem?_set_self (by rw [zeroIdx_length]; exact hi), zeroIdx_getElem?,
      List.getElem?_eq_getElem hi]
    simp
  · rw [List.getElem?_set_ne hij, zeroIdx_getElem?, zeroIdx_getElem?]
    by_cases hj : j ∈ S
    · simp [hj, List.mem_cons_of_mem i hj]
    · have hj2 : j ∉ i :: S := by
        intro hx
        rcases List.mem_cons.mp hx with h1 | h1
        · exact hij h1.symm
        · exact hj h1
      simp [hj, hj2]

/-! ### Row activity -/

theorem chunksOfRow_ne_nil (l : List Int) : ∀ c ∈ chunksOfRow l, c ≠ [] := by
  by_cases hl : l = []
  · subst hl
    rw [chunksOfRow_nil]
    simp
  · rw [chunksOfRow_eq]
    rw [if_neg hl]
    intro c hc
    rcases List.mem_cons.mp hc with h1 | h1
    · subst h1
      have : 0 < l.length := List.length_pos.mpr hl
      intro hx
      have := congrArg List.length hx
      simp only [List.length_take, List.length_nil, ROW_SIZE] at this
      omega
    · exact chunksOfRow_ne_nil (l.drop ROW_SIZE) c h1
termination_by l.length
decreasing_by
  simp only [List.length_drop]
  rcases l with _ | ⟨a, l⟩
  · simp_all
  · simp only [List.length_cons, ROW_SIZE]
    omega

theorem rowActive_iff_chunks (x : Board) :
    (∀ c ∈ chunksOfRow x, c.any (fun v => v > 0) = true) ↔ rowActiveIdx x := by
  by_cases hx : x = []
  · subst hx
    rw [chunksOfRow_nil]
    constructor
    · intro _ r hr
      simp at hr
    · intro _ c hc
      simp at hc
  · have hlen : 0 < x.length := List.length_pos.mpr hx
    rw [chunksOfRow_eq, if_neg hx]
    have ih := rowActive_iff_chunks (x.drop ROW_SIZE)
    constructor
    · intro h r hr
      cases r with
      | zero =>
        have h0 := h (x.take ROW_SIZE) (List.mem_cons_self _ _)
        rw [List.any_eq_true] at h0
        obtain ⟨v, hv, hvp⟩ := h0
        rw [List.mem_iff_getElem] at hv
        obtain ⟨idx, hidx, hval⟩ := hv
        refine ⟨idx, by omega, ?_, ?_, ?_⟩
        · have := hidx
          simp only [List.length_take, ROW_SIZE] at this
          omega
        · have := hidx
          simp only [List.length_take] at this
          omega
        · have hlt : idx < x.length := by
            have := hidx
            simp only [List.length_take] at this
            omega
          rw [List.getD_eq_getElem?_getD, List.getElem?_eq_getElem hlt]
          have : x[idx] = v := by
            rw [← hval]
            exact (List.getElem_take x).symm
          rw [this]
          simpa using hvp
      | succ r =>
        have hr2 : r * 9 < (x.drop ROW_SIZE).length := by
          simp only [List.length_drop, ROW_SIZE]
          omega
        have hdrop := (ih.mp (fun c hc => h c (List.mem_cons_of_mem _ hc))) r hr2
        obtain ⟨idx, h1, h2, h3, h4⟩ := hdrop
        refine ⟨ROW_SIZE + idx, by simp [ROW_SIZE]; omega, by simp [ROW_SIZE]; omega, ?_, ?_⟩
        · simp only [List.length_drop] at h3
          omega
        · rw [List.getD_eq_getElem?_getD] at h4 ⊢
          rw [List.getElem?_drop] at h4
          exact h4
    · intro h c hc
      rcases List.mem_cons.mp hc with h1 | h1
      · subst h1
        have h0 := h 0 (by omega)
        obtain ⟨idx, _, h2, h3, h4⟩ := h0
        rw [List.any_eq_true]
        refine ⟨x.getD idx 0, ?_, by simpa using h4⟩
        rw [List.mem_iff_getElem]
        refine ⟨idx, by simp [List.length_take, ROW_SIZE]; omega, ?_⟩
        rw [List.getElem_take]
        rw [List.getD_eq_getElem?_getD, List.getElem?_eq_getElem h3]
        rfl
      · have hsub : rowActiveIdx (x.drop ROW_SIZE) := by
          intro r hr
          have hr2 : (r + 1) * 9 < x.length := by
            simp only [List.length_drop, ROW_SIZE] at hr
            omega
          obtain ⟨idx, ha, hb, hcc, hd⟩ := h (r + 1) hr2
          refine ⟨idx - ROW_SIZE, by simp [ROW_SIZE]; omega, by simp [ROW_SIZE]; omega, ?_, ?_⟩
          · simp only [List.length_drop, ROW_SIZE]
            omega
          · rw [List.getD_eq_getElem?_getD, List.getElem?_drop]
            have hidx : ROW_SIZE + (idx - ROW_SIZE) = idx := by
              simp only [ROW_SIZE]
              omega
            rw [hidx]
            rw [List.getD_eq_getElem?_getD] at hd
            exact hd
        exact ih.mpr hsub c h1
termination_by x.length
decreasing_by
  simp only [List.length_drop]
  rcases x with _ | ⟨a, x⟩
  · simp_all
  · simp only [List.length_cons, ROW_SIZE]
    omega

theorem rowActiveIdx_zeroIdx_subset (b : Board) (S T : List Nat) (hST : ∀ i ∈ S, i ∈ T)
    (h : rowActiveIdx (zeroIdx b T)) : rowActiveIdx (zeroIdx b S) := by
  intro r hr
  rw [zeroIdx_length] at hr
  obtain ⟨idx, h1, h2, h3, h4⟩ := h r (by rw [zeroIdx_length]; exact hr)
  rw [zeroIdx_length] at h3
  refine ⟨idx, h1, h2, by rw [zeroIdx_length]; exact h3, ?_⟩
  rw [zeroIdx_getD] at h4 ⊢
  rw [if_pos h3] at h4 ⊢
  by_cases hT : idx ∈ T
  · rw [if_pos hT] at h4
    omega
  · rw [if_neg hT] at h4
    rw [if_neg (fun hx => hT (hST idx hx))]
    exact h4

/-! ### applyMove as pure zeroing when no row empties -/

theorem length_flatten_filter_le (p : List Int → Bool) (L : List (List Int)) :
    (List.flatten (L.filter p)).length ≤ (List.flatten L).length := by
  induction L with
  | nil => simp
  | cons c L ih =>
    rw [List.filter_cons]
    by_cases hp : p c = true
    · rw [if_pos hp]
      simp only [List.flatten_cons, List.length_append]
      omega
    · rw [if_neg hp]
      simp only [List.flatten_cons, List.length_append]
      omega

theorem all_filter_of_length_flatten_eq (p : List Int → Bool) (L : List (List Int))
    (hne : ∀ c ∈ L, c ≠ [])
    (hlen : (List.flatten (L.filter p)).length = (List.flatten L).length) :
    ∀ c ∈ L, p c = true := by
  induction L with
  | nil => simp
  | cons c L ih =>
    rw [List.filter_cons] at hlen
    by_cases hp : p c = true
    · rw [if_pos hp] at hlen
      simp only [List.flatten_cons, List.length_append] at hlen
      intro d hd
      rcases List.mem_cons.mp hd with h1 | h1
      · rw [h1]
        exact hp
      · exact ih (fun d hd => hne d (List.mem_cons_of_mem _ hd)) (by omega) d h1
    · rw [if_neg hp] at hlen
      have h1 := length_flatten_filter_le p L
      have h2 : 0 < c.length := List.length_pos.mpr (hne c (List.mem_cons_self _ _))
      simp only [List.flatten_cons, List.length_append] at hlen
      omega

theorem jsSet_in_range (l : List Int) (i : Nat) (x : Int) (h : i < l.length) :
    jsSet l i x = l.set i x := by
  unfold jsSet
  rw [if_pos h]

theorem applyMove_in_range (b : Board) (i j : Nat) (hi : i < b.length) (hj : j < b.length) :
    applyMove b i j =
      ((chunksOfRow ((b.set i 0).set j 0)).filter
        (fun row => row.any (fun v => v > 0))).flatten := by
  unfold applyMove
  rw [jsSet_in_range _ _ _ hi, jsSet_in_range _ _ _ (by simpa using hj)]

theorem applyMove_length_le_in_range (b : Board) (i j : Nat) (hi : i < b.length)
    (hj : j < b.length) : (applyMove b i j).length ≤ b.length := by
  rw [applyMove_in_range b i j hi hj]
  have h1 := length_flatten_filter_le (fun row => row.any (fun v => v > 0))
    (chunksOfRow ((b.set i 0).set j 0))
  rw [flatten_chunksOfRow] at h1
  simpa using h1

theorem applyMove_no_removal (b : Board) (i j : Nat) (hi : i < b.length) (hj : j < b.length)
    (hact : ∀ c ∈ chunksOfRow ((b.set i 0).set j 0), c.any (fun v => v > 0) = true) :
    applyMove b i j = (b.set i 0).set j 0 := by
  rw [applyMove_in_range b i j hi hj, List.filter_eq_self.mpr hact, flatten_chunksOfRow]

theorem applyMove_len_eq_active (b : Board) (i j : Nat) (hi : i < b.length) (hj : j < b.length)
    (hlen : (applyMove b i j).length = b.length) :
    (∀ c ∈ chunksOfRow ((b.set i 0).set j 0), c.any (fun v => v > 0) = true) ∧
      applyMove b i j = (b.set i 0).set j 0 := by
  have hact : ∀ c ∈ chunksOfRow ((b.set i 0).set j 0),
      (fun row => row.any (fun v => v > 0)) c = true := by
    apply all_filter_of_length_flatten_eq
    · exact fun c hc => chunksOfRow_ne_nil _ c hc
    · rw [flatten_chunksOfRow]
      simp only [List.length_set]
      rw [← applyMove_in_range b i j hi hj]
      exact hlen
  exact ⟨hact, applyMove_no_removal b i j hi hj hact⟩

theorem applyMove_zeroIdx (B : Board) (full : List Nat) (E : List Nat) (mv : Move)
    (hA : rowActiveIdx (zeroIdx B full))
    (hbound : ∀ v ∈ full, v < B.length)
    (h1 : mv.1 ∈ full) (h2 : mv.2 ∈ full) (hE : ∀ v ∈ E, v ∈ full) :
    applyMove (zeroIdx B E) mv.1 mv.2 = zeroIdx B (mv.2 :: mv.1 :: E) := by
  have hi : mv.1 < (zeroIdx B E).length := by
    rw [zeroIdx_length]
    exact hbound _ h1
  have hj : mv.2 < (zeroIdx B E).length := by
    rw [zeroIdx_length]
    exact hbound _ h2
  have hset : ((zeroIdx B E).set mv.1 0).set mv.2 0 = zeroIdx B (mv.2 :: mv.1 :: E) := by
    rw [set_zeroIdx B E mv.1 (hbound _ h1), set_zeroIdx B (mv.1 :: E) mv.2 (hbound _ h2)]
  have hAs : rowActiveIdx (zeroIdx B (mv.2 :: mv.1 :: E)) := by
    apply rowActiveIdx_zeroIdx_subset B (mv.2 :: mv.1 :: E) full _ hA
    intro v hv
    rcases List.mem_cons.mp hv with h | h
    · rw [h]
      exact h2
    · rcases List.mem_cons.mp h with h | h
      · rw [h]
        exact h1
      · exact hE v h
  have hact : ∀ c ∈ chunksOfRow (((zeroIdx B E).set mv.1 0).set mv.2 0),
      c.any (fun v => v > 0) = true := by
    rw [hset]
    exact (rowActive_iff_chunks _).mpr hAs
  rw [applyMove_no_removal _ _ _ hi hj hact, hset]

theorem foldApply_zeroIdx (B : Board) (full : List Nat)
    (hA : rowActiveIdx (zeroIdx B full)) (hbound : ∀ v ∈ full, v < B.length) :
    ∀ (q : List Move) (E : List Nat), (∀ v ∈ E, v ∈ full) → (∀ v ∈ moveEnds q, v ∈ full) →
      q.foldl (fun bd mv => applyMove bd mv.1 mv.2) (zeroIdx B E) =
        zeroIdx B ((moveEnds q).reverse ++ E) := by
  intro q
  induction q with
  | nil =>
    intro E hE hq
    simp [moveEnds]
  | cons mv q ih =>
    intro E hE hq
    have h1 : mv.1 ∈ full := hq _ (by simp [moveEnds])
    have h2 : mv.2 ∈ full := hq _ (by simp [moveEnds])
    rw [List.foldl_cons, applyMove_zeroIdx B full E mv hA hbound h1 h2 hE,
      ih (mv.2 :: mv.1 :: E)
        (by
          intro v hv
          rcases List.mem_cons.mp hv with h | h
          · rw [h]; exact h2
          · rcases List.mem_cons.mp h with h | h
            · rw [h]; exact h1
            · exact hE v h)
        (by
          intro v hv
          apply hq
          simp only [moveEnds, List.flatMap_cons, List.mem_append]
          right
          exact hv)]
    apply zeroIdx_congr
    intro v
    simp only [moveEnds, List.flatMap_cons, List.mem_append, List.mem_reverse,
      List.mem_cons, List.mem_singleton]
    tauto

/-! ### What the scanning loops of the move enumerator guarantee -/

theorem getD_pos_lt {bd : Board} {i : Nat} (h : bd.getD i 0 > 0) : i < bd.length := by
  by_contra hc
  rw [List.getD_eq_default] at h
  · omega
  · omega

theorem find?_range'_spec (p : Nat → Bool) :
    ∀ (n s a : Nat), (List.range' s n).find? p = some a →
      s ≤ a ∧ a < s + n ∧ p a = true ∧ ∀ x, s ≤ x → x < a → p x = false := by
  intro n
  induction n with
  | zero =>
    intro s a h
    simp [List.range'] at h
  | succ n ih =>
    intro s a h
    rw [List.range'_succ] at h
    by_cases hp : p s = true
    · rw [List.find?_cons_of_pos _ hp] at h
      injection h with h
      rw [← h]
      exact ⟨Nat.le_refl _, by omega, hp, fun x hx1 hx2 => False.elim (by omega)⟩
    · have hp' : p s = false := by
        simp at hp
        exact hp
      rw [List.find?_cons_of_neg _ (by simp [hp'])] at h
      obtain ⟨ha1, ha2, ha3, ha4⟩ := ih (s + 1) a h
      refine ⟨by omega, by omega, ha3, ?_⟩
      intro x hx1 hx2
      by_cases hxs : x = s
      · rw [hxs]
        exact hp'
      · exact ha4 x (by omega) hx2

theorem findNextAux_spec (board : Board) (dc : Int) (n : Nat) :
    ∀ (fuel : Nat) (r : Nat) (c : Int) (idx : Nat),
      findNextAux board dc n fuel r c = some idx →
      ∃ t : Nat,
        (∀ u : Nat, u ≤ t → (r + u) * 9 < n ∧ 0 ≤ c + dc * u ∧ c + dc * u < 9) ∧
        idx = (r + t) * 9 + (c + dc * t).toNat ∧
        board.getD idx 0 > 0 ∧
        ∀ u : Nat, u < t → ¬(board.getD ((r + u) * 9 + (c + dc * u).toNat) 0 > 0) := by
  intro fuel
  induction fuel with
  | zero =>
    intro r c idx h
    simp [findNextAux] at h
  | succ fuel ih =>
    intro r c idx h
    rw [findNextAux] at h
    split at h
    case isFalse => exact absurd h (by simp)
    case isTrue hcond =>
      obtain ⟨hc1, hc2, hc3⟩ := hcond
      simp only [ROW_SIZE] at h
      split at h
      · rename_i hact
        injection h with h
        refine ⟨0, ?_, ?_, ?_, ?_⟩
        · intro u hu
          have hu0 : u = 0 := by omega
          rw [hu0]
          push_cast
          simp only [Nat.add_zero, mul_zero, add_zero]
          exact ⟨hc1, hc2, hc3⟩
        · rw [← h]
          push_cast
          simp only [Nat.add_zero, mul_zero, add_zero]
        · rw [← h]
          exact hact
        · intro u hu
          omega
      · rename_i hact
        obtain ⟨t, hbnd, hidx, hpos, hfail⟩ := ih (r + 1) (c + dc) idx h
        have hcast : ∀ u' : Nat, c + dc * ((u' : Int) + 1) = (c + dc) + dc * u' := by
          intro u'
          ring
        refine ⟨t + 1, ?_, ?_, hpos, ?_⟩
        · intro u hu
          cases u with
          | zero =>
            push_cast
            simp only [Nat.add_zero, mul_zero, add_zero]
            exact ⟨hc1, hc2, hc3⟩
          | succ u' =>
            obtain ⟨hb1, hb2, hb3⟩ := hbnd u' (by omega)
            push_cast
            rw [hcast u']
            refine ⟨by omega, hb2, hb3⟩
        · rw [hidx]
          push_cast
          rw [hcast t]
          congr 1
          omega
        · intro u hu
          cases u with
          | zero =>
            push_cast
            simp only [Nat.add_zero, mul_zero, add_zero]
            exact hact
          | succ u' =>
            have := hfail u' (by omega)
            push_cast
            rw [hcast u']
            convert this using 3
            omega

/-! ### Validity checker facts -/

theorem getD_eq_getElem {l : List Int} {i : Nat} (h : i < l.length) : l.getD i 0 = l[i] := by
  rw [List.getD_eq_getElem?_getD, List.getElem?_eq_getElem h]
  rfl

theorem isValidPair_true_of (board : Board) (i j : Nat) (hi : board.getD i 0 > 0)
    (hj : board.getD j 0 > 0)
    (hcond : board.getD i 0 = board.getD j 0 ∨ board.getD i 0 + board.getD j 0 = 10) :
    isValidPair board i j = true := by
  have hi' : i < board.length := getD_pos_lt hi
  have hj' : j < board.length := getD_pos_lt hj
  unfold isValidPair
  rw [List.get?_eq_getElem?, List.get?_eq_getElem?,
    List.getElem?_eq_getElem hi', List.getElem?_eq_getElem hj']
  rw [getD_eq_getElem hi'] at hi hcond
  rw [getD_eq_getElem hj'] at hj hcond
  simp only [jsNonPos, jsStrictEq, jsSum10]
  have h1 : ¬(board[i] ≤ 0) := by omega
  have h2 : ¬(board[j] ≤ 0) := by omega
  simp [h1, h2]
  rcases hcond with h | h
  · left
    exact h
  · right
    omega

theorem isValidPair_true_elim (board : Board) (i j : Nat) (hi : i < board.length)
    (hj : j < board.length) (h : isValidPair board i j = true) :
    board.getD i 0 > 0 ∧ board.getD j 0 > 0 ∧
      (board.getD i 0 = board.getD j 0 ∨ board.getD i 0 + board.getD j 0 = 10) := by
  unfold isValidPair at h
  rw [List.get?_eq_getElem?, List.get?_eq_getElem?,
    List.getElem?_eq_getElem hi, List.getElem?_eq_getElem hj] at h
  simp only [jsNonPos, jsStrictEq, jsSum10] at h
  rw [getD_eq_getElem hi, getD_eq_getElem hj]
  by_cases h1 : board[i] ≤ 0
  · simp [h1] at h
  · by_cases h2 : board[j] ≤ 0
    · simp [h1, h2] at h
    · simp [h1, h2] at h
      refine ⟨by omega, by omega, ?_⟩
      rcases h with h | h
      · left
        exact h
      · right
        omega

theorem hasClearPath_of_linear (board : Board) (i j : Nat) (hij : i < j)
    (hclear : anyActiveBetweenLinear board i j = false) : hasClearPath i j board = true := by
  unfold hasClearPath
  rw [if_neg (by omega : ¬ i = j)]
  simp only []
  rw [if_neg (by omega : ¬ i > j), if_neg (by omega : ¬ i > j), hclear]
  simp

theorem hasClearPath_of_vertical (board : Board) (i j : Nat) (hij : i < j)
    (hcol : i % ROW_SIZE = j % ROW_SIZE)
    (hvert : verticalBlocked board (i / ROW_SIZE) (j / ROW_SIZE) (i % ROW_SIZE) = false) :
    hasClearPath i j board = true := by
  unfold hasClearPath
  rw [if_neg (by omega : ¬ i = j)]
  simp only []
  rw [if_neg (by omega : ¬ i > j), if_neg (by omega : ¬ i > j)]
  by_cases hany : anyActiveBetweenLinear board i j = true
  · rw [hany]
    simp only [Bool.not_true, Bool.false_eq_true, if_false]
    rw [if_pos hcol, hvert]
    simp
  · simp at hany
    rw [hany]
    simp

theorem hasClearPath_of_diagonal (board : Board) (i j : Nat) (hij : i < j)
    (hcol : ¬(i % ROW_SIZE = j % ROW_SIZE))
    (hdiag : (((j / ROW_SIZE : Nat) : Int) - ((i / ROW_SIZE : Nat) : Int)).natAbs =
      (((j % ROW_SIZE : Nat) : Int) - ((i % ROW_SIZE : Nat) : Int)).natAbs)
    (hscan : diagonalScanClear board (i / ROW_SIZE) (j / ROW_SIZE) (i % ROW_SIZE)
      (if ((j % ROW_SIZE : Nat) : Int) - ((i % ROW_SIZE : Nat) : Int) > 0 then 1 else -1) =
      true) :
    hasClearPath i j board = true := by
  unfold hasClearPath
  rw [if_neg (by omega : ¬ i = j)]
  simp only []
  rw [if_neg (by omega : ¬ i > j), if_neg (by omega : ¬ i > j)]
  by_cases hany : anyActiveBetweenLinear board i j = true
  · rw [hany]
    simp only [Bool.not_true, Bool.false_eq_true, if_false]
    rw [if_neg hcol, if_pos hdiag]
    exact hscan
  · simp at hany
    rw [hany]
    simp

theorem movesAt_linear_sound (bd : Board) (i k : Nat) (hi : bd.getD i 0 > 0)
    (hfa : firstActiveAfter bd i = some k)
    (hcond : bd.getD i 0 = bd.getD k 0 ∨ bd.getD i 0 + bd.getD k 0 = 10) :
    isMoveValidOnBoard bd (i, k) = true := by
  unfold firstActiveAfter at hfa
  obtain ⟨h1, h2, h3, h4⟩ :=
    find?_range'_spec (fun k => bd.getD k 0 > 0) (bd.length - (i + 1)) (i + 1) k hfa
  have hk : bd.getD k 0 > 0 := of_decide_eq_true h3
  have hk' : k < bd.length := getD_pos_lt hk
  have hi' : i < bd.length := getD_pos_lt hi
  have hclear : anyActiveBetweenLinear bd i k = false := by
    unfold anyActiveBetweenLinear
    rw [List.any_eq_false]
    intro x hx
    rw [List.mem_range'_1] at hx
    have hfx := h4 x (by omega) (by omega)
    simp only [decide_eq_false_iff_not] at hfx
    simpa using hfx
  unfold isMoveValidOnBoard
  rw [if_neg (by
    simp only [Bool.or_eq_true, decide_eq_true_eq]
    omega)]
  rw [Bool.and_eq_true]
  exact ⟨isValidPair_true_of bd i k hi hk hcond, hasClearPath_of_linear bd i k (by omega) hclear⟩

theorem movesAt_vert_sound (bd : Board) (i j : Nat) (hij : (i < j ∧
      isValidPair bd i j = true))
    (hfd : findNextInDir bd (i / ROW_SIZE) ((i % ROW_SIZE : Nat) : Int) 0 bd.length = some j) :
    isMoveValidOnBoard bd (i, j) = true := by
  obtain ⟨hlt, hpair⟩ := hij
  unfold findNextInDir at hfd
  obtain ⟨t, hbnd, hidx, hpos, hfail⟩ :=
    findNextAux_spec bd 0 bd.length (bd.length + 1) (i / ROW_SIZE + 1)
      ((i % ROW_SIZE : Nat) + 0) j hfd
  have hj' : j < bd.length := getD_pos_lt hpos
  have hi' : i < bd.length := by omega
  simp only [mul_zero, zero_mul, add_zero, Int.toNat_natCast, ROW_SIZE] at hidx hfail
  have hmod : i % 9 < 9 := by omega
  have hj9 : j % 9 = i % 9 ∧ j / 9 = i / 9 + 1 + t := by
    constructor
    · omega
    · omega
  have hvert : verticalBlocked bd (i / ROW_SIZE) (j / ROW_SIZE) (i % ROW_SIZE) = false := by
    unfold verticalBlocked
    rw [List.any_eq_false]
    intro r hr
    rw [List.mem_range'_1] at hr
    simp only [ROW_SIZE] at hr
    have hfr := hfail (r - i / 9 - 1) (by omega)
    simp only [decide_eq_true_eq]
    intro hact
    apply hfr
    have hidx2 : getIndex r (i % ROW_SIZE) =
        (i / 9 + 1 + (r - i / 9 - 1)) * 9 + i % 9 := by
      simp only [getIndex, ROW_SIZE]
      omega
    rw [hidx2] at hact
    exact hact
  unfold isMoveValidOnBoard
  rw [if_neg (by
    simp only [Bool.or_eq_true, decide_eq_true_eq]
    omega)]
  rw [Bool.and_eq_true]
  refine ⟨hpair, hasClearPath_of_vertical bd i j hlt ?_ hvert⟩
  simp only [ROW_SIZE]
  omega

theorem movesAt_diagR_sound (bd : Board) (i j : Nat) (hij : (i < j ∧
      isValidPair bd i j = true))
    (hfd : findNextInDir bd (i / ROW_SIZE) ((i % ROW_SIZE : Nat) : Int) 1 bd.length = some j) :
    isMoveValidOnBoard bd (i, j) = true := by
  obtain ⟨hlt, hpair⟩ := hij
  unfold findNextInDir at hfd
  obtain ⟨t, hbnd, hidx, hpos, hfail⟩ :=
    findNextAux_spec bd 1 bd.length (bd.length + 1) (i / ROW_SIZE + 1)
      ((i % ROW_SIZE : Nat) + 1) j hfd
  have hj' : j < bd.length := getD_pos_lt hpos
  have hi' : i < bd.length := by omega
  simp only [one_mul, ROW_SIZE] at hidx hfail hbnd
  obtain ⟨hb1, hb2, hb3⟩ := hbnd t (Nat.le_refl t)
  have hj9 : j % 9 = i % 9 + 1 + t ∧ j / 9 = i / 9 + 1 + t := by
    constructor
    · omega
    · omega
  have hcs : (if ((j % ROW_SIZE : Nat) : Int) - ((i % ROW_SIZE : Nat) : Int) > 0
      then (1 : Int) else -1) = 1 := by
    rw [if_pos]
    simp only [ROW_SIZE]
    omega
  have hscan : diagonalScanClear bd (i / ROW_SIZE) (j / ROW_SIZE) (i % ROW_SIZE) 1 = true := by
    unfold diagonalScanClear
    rw [List.all_eq_true]
    intro u hu
    rw [List.mem_range'_1] at hu
    simp only [ROW_SIZE] at hu
    simp only [one_mul, Bool.and_eq_true, Bool.not_eq_true', decide_eq_true_eq,
      decide_eq_false_iff_not]
    obtain ⟨hc1, hc2, hc3⟩ := hbnd (u - 1) (by omega)
    refine ⟨⟨by omega, by simp only [ROW_SIZE]; omega⟩, ?_⟩
    have hcell := hfail (u - 1) (by omega)
    have hidx3 : (i / 9 + 1 + (u - 1)) * 9 + (((i % 9 : Nat) : Int) + 1 + ↑(u - 1)).toNat =
        getIndex (i / ROW_SIZE + u) (((i % ROW_SIZE : Nat) : Int) + ↑u).toNat := by
      simp only [getIndex, ROW_SIZE]
      omega
    rw [hidx3] at hcell
    exact hcell
  unfold isMoveValidOnBoard
  rw [if_neg (by
    simp only [Bool.or_eq_true, decide_eq_true_eq]
    omega)]
  rw [Bool.and_eq_true]
  refine ⟨hpair, hasClearPath_of_diagonal bd i j hlt ?_ ?_ ?_⟩
  · simp only [ROW_SIZE]
    omega
  · simp only [ROW_SIZE]
    omega
  · rw [hcs]
    exact hscan

theorem movesAt_diagL_sound (bd : Board) (i j : Nat) (hij : (i < j ∧
      isValidPair bd i j = true))
    (hfd : findNextInDir bd (i / ROW_SIZE) ((i % ROW_SIZE : Nat) : Int) (-1) bd.length =
      some j) : isMoveValidOnBoard bd (i, j) = true := by
  obtain ⟨hlt, hpair⟩ := hij
  unfold findNextInDir at hfd
  obtain ⟨t, hbnd, hidx, hpos, hfail⟩ :=
    findNextAux_spec bd (-1) bd.length (bd.length + 1) (i / ROW_SIZE + 1)
      ((i % ROW_SIZE : Nat) + (-1)) j hfd
  have hj' : j < bd.length := getD_pos_lt hpos
  have hi' : i < bd.length := by omega
  simp only [neg_mul, one_mul, ROW_SIZE] at hidx hfail hbnd
  obtain ⟨hb1, hb2, hb3⟩ := hbnd t (Nat.le_refl t)
  have hmod : i % 9 < 9 := by omega
  have hj9 : ((j % 9 : Nat) : Int) = ((i % 9 : Nat) : Int) - 1 - t ∧ j / 9 = i / 9 + 1 + t := by
    constructor
    · omega
    · omega
  have hcs : (if ((j % ROW_SIZE : Nat) : Int) - ((i % ROW_SIZE : Nat) : Int) > 0
      then (1 : Int) else -1) = -1 := by
    rw [if_neg]
    simp only [ROW_SIZE]
    omega
  have hscan : diagonalScanClear bd (i / ROW_SIZE) (j / ROW_SIZE) (i % ROW_SIZE) (-1) =
      true := by
    unfold diagonalScanClear
    rw [List.all_eq_true]
    intro u hu
    rw [List.mem_range'_1] at hu
    simp only [ROW_SIZE] at hu
    simp only [neg_mul, one_mul, Bool.and_eq_true, Bool.not_eq_true', decide_eq_true_eq,
      decide_eq_false_iff_not]
    obtain ⟨hc1, hc2, hc3⟩ := hbnd (u - 1) (by omega)
    refine ⟨⟨by simp only [ROW_SIZE]; omega, by simp only [ROW_SIZE]; omega⟩, ?_⟩
    have hcell := hfail (u - 1) (by omega)
    have hidx3 : (i / 9 + 1 + (u - 1)) * 9 + (((i % 9 : Nat) : Int) + -1 + -↑(u - 1)).toNat =
        getIndex (i / ROW_SIZE + u) (((i % ROW_SIZE : Nat) : Int) + -↑u).toNat := by
      simp only [getIndex, ROW_SIZE]
      omega
    rw [hidx3] at hcell
    exact hcell
  unfold isMoveValidOnBoard
  rw [if_neg (by
    simp only [Bool.or_eq_true, decide_eq_true_eq]
    omega)]
  rw [Bool.and_eq_true]
  refine ⟨hpair, hasClearPath_of_diagonal bd i j hlt ?_ ?_ ?_⟩
  · simp only [ROW_SIZE]
    omega
  · simp only [ROW_SIZE]
    omega
  · rw [hcs]
    exact hscan

theorem movesAt_sound (bd : Board) (i : Nat) (m : Move) (hm : m ∈ movesAt bd i) :
    isMoveValidOnBoard bd m = true := by
  unfold movesAt at hm
  by_cases hguard : bd.getD i 0 ≤ 0
  · rw [if_pos hguard] at hm
    simp at hm
  · rw [if_neg hguard] at hm
    simp only [] at hm
    have hi : bd.getD i 0 > 0 := by omega
    rcases List.mem_append.mp hm with h123 | h4
    rcases List.mem_append.mp h123 with h12 | h3
    rcases List.mem_append.mp h12 with h1 | h2
    · split at h1
      · rename_i k hfa
        split at h1
        · rename_i hcond
          rw [List.mem_singleton.mp h1]
          apply movesAt_linear_sound bd i k hi hfa
          simp only [Bool.or_eq_true, decide_eq_true_eq] at hcond
          exact hcond
        · exact absurd h1 (List.not_mem_nil m)
      · exact absurd h1 (List.not_mem_nil m)
    · split at h2
      · rename_i j hfd
        split at h2
        · rename_i hcond
          rw [List.mem_singleton.mp h2]
          apply movesAt_vert_sound bd i j _ hfd
          simp only [Bool.and_eq_true, decide_eq_true_eq] at hcond
          exact hcond
        · exact absurd h2 (List.not_mem_nil m)
      · exact absurd h2 (List.not_mem_nil m)
    · split at h3
      · rename_i j hfd
        split at h3
        · rename_i hcond
          rw [List.mem_singleton.mp h3]
          apply movesAt_diagR_sound bd i j _ hfd
          simp only [Bool.and_eq_true, decide_eq_true_eq] at hcond
          exact hcond
        · exact absurd h3 (List.not_mem_nil m)
      · exact absurd h3 (List.not_mem_nil m)
    · split at h4
      · rename_i j hfd
        split at h4
        · rename_i hcond
          rw [List.mem_singleton.mp h4]
          apply movesAt_diagL_sound bd i j _ hfd
          simp only [Bool.and_eq_true, decide_eq_true_eq] at hcond
          exact hcond
        · exact absurd h4 (List.not_mem_nil m)
      · exact absurd h4 (List.not_mem_nil m)

theorem findAllMoves_sound (bd : Board) (m : Move) (hm : m ∈ findAllMoves bd) :
    isMoveValidOnBoard bd m = true := by
  unfold findAllMoves at hm
  rw [List.mem_flatMap] at hm
  obtain ⟨i, _, hmi⟩ := hm
  exact movesAt_sound bd i m hmi

theorem valid_move_elim (bd : Board) (m : Move) (h : isMoveValidOnBoard bd m = true) :
    m.1 < bd.length ∧ m.2 < bd.length ∧ m.1 ≠ m.2 ∧
      bd.getD m.1 0 > 0 ∧ bd.getD m.2 0 > 0 := by
  unfold isMoveValidOnBoard at h
  split at h
  · exact absurd h (by simp)
  · rename_i hb
    simp only [Bool.or_eq_true, decide_eq_true_eq, not_or] at hb
    obtain ⟨hb1, hb2⟩ := hb
    rw [Bool.and_eq_true] at h
    obtain ⟨hpair, hpath⟩ := h
    have hne : m.1 ≠ m.2 := by
      intro heq
      unfold hasClearPath at hpath
      rw [if_pos heq] at hpath
      exact absurd hpath (by simp)
    obtain ⟨ha1, ha2, _⟩ := isValidPair_true_elim bd m.1 m.2 (by omega) (by omega) hpair
    exact ⟨by omega, by omega, hne, ha1, ha2⟩

/-! ### Replay and enumerator-produced sequences -/

theorem zeroIdx_zeroIdx (b : Board) (T S : List Nat) :
    zeroIdx (zeroIdx b T) S = zeroIdx b (S ++ T) := by
  apply List.ext_getElem?
  intro i
  rw [zeroIdx_getElem?, zeroIdx_getElem?, zeroIdx_getElem?, Option.map_map]
  cases hb : b[i]?
  · rfl
  · simp only [Option.map_some', Function.comp]
    congr 1
    by_cases hS : i ∈ S
    · simp [hS]
    · by_cases hT : i ∈ T
      · simp [hS, hT]
      · simp [hS, hT]

theorem replayBoard_append (bd : Board) (xs ys : List Move) :
    replayBoard bd (xs ++ ys) = replayBoard (replayBoard bd xs) ys := by
  unfold replayBoard
  rw [List.foldl_append]

theorem validPlayB_append (bd : Board) (xs ys : List Move) :
    validPlayB bd (xs ++ ys) =
      (validPlayB bd xs && validPlayB (replayBoard bd xs) ys) := by
  induction xs generalizing bd with
  | nil => simp [validPlayB, replayBoard]
  | cons m xs ih =>
    have hr : replayBoard bd (m :: xs) = replayBoard (applyMove bd m.1 m.2) xs := by
      unfold replayBoard
      rw [List.foldl_cons]
    simp only [List.cons_append, validPlayB, hr, List.append_eq,
      ih (applyMove bd m.1 m.2), Bool.and_assoc]

theorem contains_mem_move (l : List Move) (m : Move) : l.contains m = true ↔ m ∈ l := by
  induction l with
  | nil => simp
  | cons a l ih =>
    simp [List.contains_cons, ih]

theorem validPlayB_take (bd : Board) (ms : List Move) (n : Nat)
    (h : validPlayB bd ms = true) : validPlayB bd (ms.take n) = true := by
  have hsplit : ms = ms.take n ++ ms.drop n := (List.take_append_drop n ms).symm
  rw [hsplit, validPlayB_append, Bool.and_eq_true] at h
  exact h.1

theorem validPlayB_drop_take (bd : Board) (ms : List Move) (a c : Nat)
    (h : validPlayB bd ms = true) :
    validPlayB (replayBoard bd (ms.take a)) ((ms.drop a).take c) = true := by
  have hsplit : ms = ms.take a ++ ms.drop a := (List.take_append_drop a ms).symm
  rw [hsplit, validPlayB_append, Bool.and_eq_true] at h
  exact validPlayB_take _ _ c h.2

theorem validPlayB_getD_mem (bd : Board) (ms : List Move) (h : validPlayB bd ms = true) :
    ∀ s, s < ms.length →
      ms.getD s (0, 0) ∈ findAllMoves (replayBoard bd (ms.take s)) := by
  induction ms generalizing bd with
  | nil => simp
  | cons m rest ih =>
    rw [validPlayB, Bool.and_eq_true] at h
    obtain ⟨hc, hrest⟩ := h
    intro s hs
    cases s with
    | zero =>
      simp only [List.take_zero, List.getD_cons_zero]
      have : replayBoard bd [] = bd := rfl
      rw [this]
      exact (contains_mem_move _ _).mp hc
    | succ s =>
      simp only [List.getD_cons_succ, List.take_succ_cons]
      have hr : replayBoard bd (m :: rest.take s) =
          replayBoard (applyMove bd m.1 m.2) (rest.take s) := by
        unfold replayBoard
        rw [List.foldl_cons]
      rw [hr]
      exact ih (applyMove bd m.1 m.2) hrest s (by simpa using hs)

theorem playNoRemoval_of (bd : Board) (ms : List Move) (hv : validPlayB bd ms = true)
    (h : ∀ s, s < ms.length →
      ¬((applyMove (replayBoard bd (ms.take s)) (ms.getD s (0, 0)).1
          (ms.getD s (0, 0)).2).length < (replayBoard bd (ms.take s)).length)) :
    playNoRemoval bd ms = true := by
  induction ms generalizing bd with
  | nil => rfl
  | cons m rest ih =>
    rw [validPlayB, Bool.and_eq_true] at hv
    obtain ⟨hc, hrest⟩ := hv
    have hvalid := findAllMoves_sound bd m ((contains_mem_move _ _).mp hc)
    obtain ⟨h1, h2, _, _, _⟩ := valid_move_elim bd m hvalid
    have hle := applyMove_length_le_in_range bd m.1 m.2 h1 h2
    have h0 := h 0 (by simp)
    simp only [List.take_zero, List.getD_cons_zero] at h0
    have hb0 : replayBoard bd [] = bd := rfl
    rw [hb0] at h0
    rw [playNoRemoval, Bool.and_eq_true]
    refine ⟨by simp only [decide_eq_true_eq]; omega, ?_⟩
    apply ih (applyMove bd m.1 m.2) hrest
    intro s hs
    have hss := h (s + 1) (by simpa using hs)
    simp only [List.getD_cons_succ, List.take_succ_cons] at hss
    have hr : replayBoard bd (m :: rest.take s) =
        replayBoard (applyMove bd m.1 m.2) (rest.take s) := by
      unfold replayBoard
      rw [List.foldl_cons]
    rw [hr] at hss
    exact hss

theorem tagMoves_length (bd : Board) (ms : List Move) :
    (tagMoves bd ms).length = ms.length := by
  induction ms generalizing bd with
  | nil => rfl
  | cons m rest ih =>
    rw [tagMoves]
    simp only [List.length_cons, ih]

theorem tagMoves_getD_fst (bd : Board) (ms : List Move) :
    ∀ s, s < ms.length →
      ((tagMoves bd ms).getD s (false, none)).1 =
        decide ((applyMove (replayBoard bd (ms.take s)) (ms.getD s (0, 0)).1
            (ms.getD s (0, 0)).2).length < (replayBoard bd (ms.take s)).length) := by
  induction ms generalizing bd with
  | nil => simp
  | cons m rest ih =>
    intro s hs
    cases s with
    | zero =>
      rw [tagMoves]
      simp only [List.getD_cons_zero, List.take_zero, List.getD_cons_zero,
        replayBoard, List.foldl_nil]
      split
      · rename_i hlt
        simp [hlt]
      · rename_i hlt
        simp at hlt
        simp [hlt]
    | succ s =>
      rw [tagMoves]
      simp only [List.getD_cons_succ, List.take_succ_cons]
      have hstep := ih (applyMove bd m.1 m.2) s (by simpa using hs)
      simp only [replayBoard, List.foldl_cons] at hstep ⊢
      exact hstep

theorem getD_drop_take (l : List Move) (a c s : Nat) (h1 : s < c) :
    ((l.drop a).take c).getD s (0, 0) = l.getD (a + s) (0, 0) := by
  rw [List.getD_eq_getElem?_getD, List.getD_eq_getElem?_getD]
  rw [List.getElem?_take, if_pos h1, List.getElem?_drop]

theorem zeroIdx_pos_not_mem {b : Board} {S : List Nat} {idx : Nat}
    (h : (zeroIdx b S).getD idx 0 > 0) : idx ∉ S := by
  intro hmem
  rw [zeroIdx_getD] at h
  by_cases hlt : idx < b.length
  · rw [if_pos hlt, if_pos hmem] at h
    omega
  · rw [if_neg hlt] at h
    omega

theorem moveEnds_cons (m : Move) (ms : List Move) :
    moveEnds (m :: ms) = m.1 :: m.2 :: moveEnds ms := by
  simp [moveEnds]

theorem mem_moveEnds {v : Nat} {ms : List Move} (h : v ∈ moveEnds ms) :
    ∃ m ∈ ms, v = m.1 ∨ v = m.2 := by
  unfold moveEnds at h
  rw [List.mem_flatMap] at h
  obtain ⟨m, hm, hv⟩ := h
  refine ⟨m, hm, ?_⟩
  rcases List.mem_cons.mp hv with h1 | h1
  · left
    exact h1
  · right
    simpa using h1

set_option maxHeartbeats 1600000 in
theorem seg_facts (ms : List Move) : ∀ (B : Board), validPlayB B ms = true →
    playNoRemoval B ms = true →
    (moveEnds ms).Nodup ∧ (∀ v ∈ moveEnds ms, v < B.length) ∧
      replayBoard B ms = zeroIdx B (moveEnds ms) ∧
      (∀ pre m suf, ms = pre ++ m :: suf →
        isMoveValidOnBoard (zeroIdx B (moveEnds pre)) m = true) ∧
      (ms ≠ [] → rowActiveIdx (zeroIdx B (moveEnds ms))) := by
  induction ms with
  | nil =>
    intro B hv hnr
    refine ⟨by simp [moveEnds], by simp [moveEnds], ?_, ?_, ?_⟩
    · show replayBoard B [] = zeroIdx B (moveEnds [])
      have h1 : moveEnds [] = [] := rfl
      rw [h1, zeroIdx_nil]
      rfl
    · intro pre m suf h
      exact absurd h (by simp)
    · intro h
      exact absurd rfl h
  | cons m0 rest ih =>
    intro B hv hnr
    rw [validPlayB, Bool.and_eq_true] at hv
    obtain ⟨hc0, hvrest⟩ := hv
    rw [playNoRemoval, Bool.and_eq_true] at hnr
    obtain ⟨hlen0, hnrrest⟩ := hnr
    rw [decide_eq_true_eq] at hlen0
    have hm0 := findAllMoves_sound B m0 ((contains_mem_move _ _).mp hc0)
    obtain ⟨hi1, hi2, hne0, hp1, hp2⟩ := valid_move_elim B m0 hm0
    have hact := applyMove_len_eq_active B m0.1 m0.2 hi1 hi2 hlen0
    have hs1 : B.set m0.1 0 = zeroIdx B [m0.1] := by
      have h := set_zeroIdx B [] m0.1 hi1
      rw [zeroIdx_nil] at h
      exact h
    have hch : (B.set m0.1 0).set m0.2 0 = zeroIdx B [m0.2, m0.1] := by
      rw [hs1, set_zeroIdx B [m0.1] m0.2 hi2]
    have hB2eq : applyMove B m0.1 m0.2 = zeroIdx B [m0.2, m0.1] := by
      rw [hact.2, hch]
    have hrowB2 : rowActiveIdx (zeroIdx B [m0.2, m0.1]) := by
      apply (rowActive_iff_chunks _).mp
      have hactl := hact.1
      rw [hch] at hactl
      exact hactl
    obtain ⟨ihN, ihB, ihR, ihV, ihA⟩ := ih (applyMove B m0.1 m0.2) hvrest hnrrest
    have hzz : ∀ S : List Nat,
        zeroIdx (applyMove B m0.1 m0.2) S = zeroIdx B (S ++ [m0.2, m0.1]) := by
      intro S
      rw [hB2eq, zeroIdx_zeroIdx]
    have hlenB2 : (applyMove B m0.1 m0.2).length = B.length := hlen0
    have hdisj : ∀ v ∈ moveEnds rest, v ≠ m0.1 ∧ v ≠ m0.2 := by
      intro v hv
      obtain ⟨mm, hmm, hvm⟩ := mem_moveEnds hv
      obtain ⟨pre, suf, hsplit⟩ := List.append_of_mem hmm
      have hvalidm := ihV pre mm suf hsplit
      obtain ⟨_, _, _, hq1, hq2⟩ := valid_move_elim _ mm hvalidm
      rw [hzz] at hq1 hq2
      have hn1 := zeroIdx_pos_not_mem hq1
      have hn2 := zeroIdx_pos_not_mem hq2
      simp only [List.mem_append, List.mem_cons, List.mem_singleton, not_or] at hn1 hn2
      rcases hvm with h | h
      · rw [h]
        exact ⟨hn1.2.2.1, hn1.2.1⟩
      · rw [h]
        exact ⟨hn2.2.2.1, hn2.2.1⟩
    refine ⟨?_, ?_, ?_, ?_, ?_⟩
    · rw [moveEnds_cons, List.nodup_cons, List.nodup_cons]
      refine ⟨?_, ?_, ihN⟩
      · intro hmem
        rcases List.mem_cons.mp hmem with h | h
        · exact hne0 h
        · exact (hdisj _ h).1 rfl
      · intro hmem
        exact (hdisj _ hmem).2 rfl
    · rw [moveEnds_cons]
      intro v hvv
      rcases List.mem_cons.mp hvv with h | h
      · rw [h]
        exact hi1
      · rcases List.mem_cons.mp h with h | h
        · rw [h]
          exact hi2
        · rw [← hlenB2]
          exact ihB v h
    · have hr : replayBoard B (m0 :: rest) =
          replayBoard (applyMove B m0.1 m0.2) rest := by
        unfold replayBoard
        rw [List.foldl_cons]
      rw [hr, ihR, hzz]
      apply zeroIdx_congr
      intro v
      rw [moveEnds_cons]
      simp only [List.mem_append, List.mem_cons, List.mem_singleton]
      tauto
    · intro pre m suf heq
      cases pre with
      | nil =>
        simp only [List.nil_append] at heq
        have hm : m = m0 := by
          injection heq with h1 _
          exact h1.symm
        have he : moveEnds ([] : List Move) = [] := rfl
        rw [he, zeroIdx_nil, hm]
        exact hm0
      | cons p0 pre' =>
        simp only [List.cons_append] at heq
        have hp0 : p0 = m0 := by
          injection heq with h1 _
          exact h1.symm
        have hrest : rest = pre' ++ m :: suf := by
          injection heq with _ h2
        have hv := ihV pre' m suf hrest
        rw [hzz] at hv
        rw [hp0]
        rw [zeroIdx_congr B (moveEnds (m0 :: pre')) (moveEnds pre' ++ [m0.2, m0.1]) (by
          intro v
          rw [moveEnds_cons]
          simp only [List.mem_append, List.mem_cons, List.mem_singleton]
          tauto)]
        exact hv
    · intro _
      by_cases hrest : rest = []
      · rw [hrest]
        rw [zeroIdx_congr B (moveEnds [m0]) [m0.2, m0.1] (by
          intro v
          rw [moveEnds_cons]
          have he : moveEnds ([] : List Move) = [] := rfl
          rw [he]
          simp only [List.mem_cons, List.mem_singleton, List.not_mem_nil, or_false]
          tauto)]
        exact hrowB2
      · have hA := ihA hrest
        rw [hzz] at hA
        rw [zeroIdx_congr B (moveEnds (m0 :: rest)) (moveEnds rest ++ [m0.2, m0.1]) (by
          intro v
          rw [moveEnds_cons]
          simp only [List.mem_append, List.mem_cons, List.mem_singleton]
          tauto)]
        exact hA

/-! ### Move validity is preserved by zeroing other cells -/

theorem anyActive_mono (x y : Board) (lo hi : Nat)
    (himp : ∀ idx, y.getD idx 0 > 0 → x.getD idx 0 > 0)
    (h : anyActiveBetweenLinear y lo hi = true) : anyActiveBetweenLinear x lo hi = true := by
  unfold anyActiveBetweenLinear at h ⊢
  rw [List.any_eq_true] at h ⊢
  obtain ⟨k, hk, hpk⟩ := h
  exact ⟨k, hk, by simp only [decide_eq_true_eq] at hpk ⊢; exact himp _ hpk⟩

theorem verticalBlocked_mono (x y : Board) (ri rj ci : Nat)
    (himp : ∀ idx, y.getD idx 0 > 0 → x.getD idx 0 > 0)
    (h : verticalBlocked y ri rj ci = true) : verticalBlocked x ri rj ci = true := by
  unfold verticalBlocked at h ⊢
  rw [List.any_eq_true] at h ⊢
  obtain ⟨r, hr, hpr⟩ := h
  exact ⟨r, hr, by simp only [decide_eq_true_eq] at hpr ⊢; exact himp _ hpr⟩

theorem diagScan_mono (x y : Board) (ri rj ci : Nat) (cs : Int)
    (himp : ∀ idx, y.getD idx 0 > 0 → x.getD idx 0 > 0)
    (h : diagonalScanClear x ri rj ci cs = true) : diagonalScanClear y ri rj ci cs = true := by
  unfold diagonalScanClear at h ⊢
  rw [List.all_eq_true] at h ⊢
  intro t ht
  have hx := h t ht
  simp only [Bool.and_eq_true, Bool.not_eq_true', decide_eq_true_eq,
    decide_eq_false_iff_not] at hx ⊢
  refine ⟨hx.1, ?_⟩
  intro hy
  exact hx.2 (himp _ hy)

theorem hasClearPath_mono (x y : Board) (i j : Nat)
    (himp : ∀ idx, y.getD idx 0 > 0 → x.getD idx 0 > 0)
    (h : hasClearPath i j x = true) : hasClearPath i j y = true := by
  by_cases hij : i = j
  · unfold hasClearPath at h
    rw [if_pos hij] at h
    exact absurd h (by simp)
  · unfold hasClearPath at h ⊢
    rw [if_neg hij] at h ⊢
    simp only [] at h ⊢
    by_cases hlin : anyActiveBetweenLinear y (if i > j then j else i)
        (if i > j then i else j) = true
    · have hlinx := anyActive_mono x y _ _ himp hlin
      rw [hlinx] at h
      rw [hlin]
      simp only [Bool.not_true, Bool.false_eq_true, if_false] at h ⊢
      by_cases hcc : (if i > j then j else i) % ROW_SIZE =
          (if i > j then i else j) % ROW_SIZE
      · rw [if_pos hcc] at h ⊢
        rw [Bool.not_eq_true'] at h ⊢
        rcases Bool.eq_false_or_eq_true (verticalBlocked y ((if i > j then j else i) / ROW_SIZE)
            ((if i > j then i else j) / ROW_SIZE) ((if i > j then j else i) % ROW_SIZE)) with
          ht | hf
        · have hxv := verticalBlocked_mono x y _ _ _ himp ht
          rw [h] at hxv
          exact absurd hxv (by simp)
        · exact hf
      · rw [if_neg hcc] at h ⊢
        by_cases hnat : ((((if i > j then i else j) / ROW_SIZE : Nat) : Int) -
            (((if i > j then j else i) / ROW_SIZE : Nat) : Int)).natAbs =
            ((((if i > j then i else j) % ROW_SIZE : Nat) : Int) -
            (((if i > j then j else i) % ROW_SIZE : Nat) : Int)).natAbs
        · rw [if_pos hnat] at h ⊢
          exact diagScan_mono x y _ _ _ _ himp h
        · rw [if_neg hnat] at h
          exact absurd h (by simp)
    · have hlin' : anyActiveBetweenLinear y (if i > j then j else i)
          (if i > j then i else j) = false := by
        simpa using hlin
      rw [hlin']
      simp

theorem isMoveValid_mono (b : Board) (S T : List Nat) (m : Move)
    (hST : ∀ v ∈ S, v ∈ T) (h1 : m.1 ∉ T) (h2 : m.2 ∉ T)
    (hv : isMoveValidOnBoard (zeroIdx b S) m = true) :
    isMoveValidOnBoard (zeroIdx b T) m = true := by
  obtain ⟨hb1, hb2, hne, hp1, hp2⟩ := valid_move_elim _ m hv
  rw [zeroIdx_length] at hb1 hb2
  have hm1S : m.1 ∉ S := fun h => h1 (hST _ h)
  have hm2S : m.2 ∉ S := fun h => h2 (hST _ h)
  have hget1 : (zeroIdx b T)[m.1]? = (zeroIdx b S)[m.1]? := by
    rw [zeroIdx_getElem?, zeroIdx_getElem?]
    cases b[m.1]?
    · rfl
    · simp [h1, hm1S]
  have hget2 : (zeroIdx b T)[m.2]? = (zeroIdx b S)[m.2]? := by
    rw [zeroIdx_getElem?, zeroIdx_getElem?]
    cases b[m.2]?
    · rfl
    · simp [h2, hm2S]
  have hpair : isValidPair (zeroIdx b T) m.1 m.2 = isValidPair (zeroIdx b S) m.1 m.2 := by
    unfold isValidPair
    rw [List.get?_eq_getElem?, List.get?_eq_getElem?, List.get?_eq_getElem?,
      List.get?_eq_getElem?, hget1, hget2]
  have himp : ∀ idx, (zeroIdx b T).getD idx 0 > 0 → (zeroIdx b S).getD idx 0 > 0 := by
    intro idx h
    rw [zeroIdx_getD] at h ⊢
    by_cases hl : idx < b.length
    · rw [if_pos hl] at h ⊢
      by_cases hT : idx ∈ T
      · rw [if_pos hT] at h
        omega
      · rw [if_neg hT] at h
        rw [if_neg (fun hS => hT (hST _ hS))]
        exact h
    · rw [if_neg hl] at h
      omega
  unfold isMoveValidOnBoard at hv ⊢
  rw [if_neg (by
    simp only [Bool.or_eq_true, decide_eq_true_eq, not_or, not_le, zeroIdx_length]
    exact ⟨hb1, hb2⟩)] at hv
  rw [if_neg (by
    simp only [Bool.or_eq_true, decide_eq_true_eq, not_or, not_le, zeroIdx_length]
    exact ⟨hb1, hb2⟩)]
  rw [Bool.and_eq_true] at hv
  rw [Bool.and_eq_true]
  exact ⟨by rw [hpair]; exact hv.1, hasClearPath_mono _ _ m.1 m.2 himp hv.2⟩

/-! ### The sub-grouping loop never needs its force-admit branch -/

theorem moveEnds_append (l₁ l₂ : List Move) :
    moveEnds (l₁ ++ l₂) = moveEnds l₁ ++ moveEnds l₂ := by
  unfold moveEnds
  rw [List.flatMap_append]

theorem moveEnds_mem_of {m : Move} {l : List Move} (h : m ∈ l) :
    m.1 ∈ moveEnds l ∧ m.2 ∈ moveEnds l := by
  unfold moveEnds
  constructor
  · rw [List.mem_flatMap]
    exact ⟨m, h, by simp⟩
  · rw [List.mem_flatMap]
    exact ⟨m, h, by simp⟩

theorem moveEnds_subset {l₁ l₂ : List Move} (h : ∀ m ∈ l₁, m ∈ l₂) :
    ∀ v ∈ moveEnds l₁, v ∈ moveEnds l₂ := by
  intro v hv
  obtain ⟨m, hm, hvm⟩ := mem_moveEnds hv
  rcases hvm with h1 | h1
  · rw [h1]
    exact (moveEnds_mem_of (h m hm)).1
  · rw [h1]
    exact (moveEnds_mem_of (h m hm)).2

theorem perm_moveEnds {l₁ l₂ : List Move} (h : l₁.Perm l₂) :
    (moveEnds l₁).Perm (moveEnds l₂) := by
  induction h with
  | nil => exact List.Perm.refl _
  | cons m _ ih =>
    rw [moveEnds_cons, moveEnds_cons]
    exact (ih.cons m.2).cons m.1
  | swap m n l =>
    rw [moveEnds_cons, moveEnds_cons, moveEnds_cons, moveEnds_cons]
    have h1 : [n.1, n.2] ++ ([m.1, m.2] ++ moveEnds l) =
        ([n.1, n.2] ++ [m.1, m.2]) ++ moveEnds l := by
      rw [List.append_assoc]
    have h2 : [m.1, m.2] ++ ([n.1, n.2] ++ moveEnds l) =
        ([m.1, m.2] ++ [n.1, n.2]) ++ moveEnds l := by
      rw [List.append_assoc]
    show ([n.1, n.2] ++ ([m.1, m.2] ++ moveEnds l)).Perm
      ([m.1, m.2] ++ ([n.1, n.2] ++ moveEnds l))
    rw [h1, h2]
    exact (List.perm_append_comm).append_right (moveEnds l)
  | trans _ _ ih1 ih2 => exact ih1.trans ih2

theorem cons_sublist_decomp {α : Type} {a : α} {l r : List α} (h : (a :: l).Sublist r) :
    ∃ r₁ r₂, r = r₁ ++ a :: r₂ ∧ l.Sublist r₂ := by
  induction r with
  | nil => exact absurd h (by simp)
  | cons b r ih =>
    cases h with
    | cons a hs2 =>
      obtain ⟨r₁, r₂, heq, hsl⟩ := ih hs2
      exact ⟨b :: r₁, r₂, by rw [heq]; rfl, hsl⟩
    | cons₂ a hs2 =>
      exact ⟨[], r, rfl, hs2⟩

theorem head_valid_subgroup (B : Board) (ms used rest : List Move) (h0 : Move)
    (hN : (moveEnds ms).Nodup)
    (hV : ∀ pre m suf, ms = pre ++ m :: suf →
      isMoveValidOnBoard (zeroIdx B (moveEnds pre)) m = true)
    (hperm : (used ++ h0 :: rest).Perm ms)
    (hsub : (h0 :: rest).Sublist ms) :
    isMoveValidOnBoard (zeroIdx B (moveEnds used)) h0 = true := by
  obtain ⟨pre, suf, hms, hrs⟩ := cons_sublist_decomp hsub
  have hvm := hV pre h0 suf hms
  have hpermE : (moveEnds (used ++ h0 :: rest)).Perm (moveEnds ms) := perm_moveEnds hperm
  have hNodup2 : (moveEnds used ++ moveEnds (h0 :: rest)).Nodup := by
    rw [← moveEnds_append]
    exact hpermE.symm.nodup hN
  rw [List.nodup_append] at hNodup2
  obtain ⟨_, _, hdisj⟩ := hNodup2
  have h01 : h0.1 ∉ moveEnds used := by
    intro hx
    exact hdisj hx (by
      rw [moveEnds_cons]
      exact List.mem_cons_self _ _)
  have h02 : h0.2 ∉ moveEnds used := by
    intro hx
    exact hdisj hx (by
      rw [moveEnds_cons]
      exact List.mem_cons_of_mem _ (List.mem_cons_self _ _))
  have hNms := hN
  rw [hms, moveEnds_append, List.nodup_append] at hNms
  obtain ⟨_, _, hdisj2⟩ := hNms
  have hpre : ∀ v ∈ moveEnds pre, v ∈ moveEnds used := by
    intro v hv
    have hvnot : v ∉ moveEnds (h0 :: rest) := by
      intro hvr
      apply hdisj2 hv
      rw [moveEnds_cons] at hvr ⊢
      rcases List.mem_cons.mp hvr with h1 | h1
      · rw [h1]
        exact List.mem_cons_self _ _
      · rcases List.mem_cons.mp h1 with h2 | h2
        · rw [h2]
          exact List.mem_cons_of_mem _ (List.mem_cons_self _ _)
        · apply List.mem_cons_of_mem
          apply List.mem_cons_of_mem
          exact moveEnds_subset (fun m hm => hrs.subset hm) v h2
    have hvms : v ∈ moveEnds ms := by
      rw [hms, moveEnds_append]
      exact List.mem_append_left _ hv
    have := hpermE.mem_iff.mpr hvms
    rw [moveEnds_append, List.mem_append] at this
    rcases this with h1 | h1
    · exact h1
    · exact absurd h1 hvnot
  exact isMoveValid_mono B (moveEnds pre) (moveEnds used) h0 hpre h01 h02 hvm

set_option maxHeartbeats 1600000 in
theorem subgroupAux_facts (B : Board) (ms : List Move)
    (hN : (moveEnds ms).Nodup) (hBd : ∀ v ∈ moveEnds ms, v < B.length)
    (hV : ∀ pre m suf, ms = pre ++ m :: suf →
      isMoveValidOnBoard (zeroIdx B (moveEnds pre)) m = true)
    (hA : rowActiveIdx (zeroIdx B (moveEnds ms))) :
    ∀ fuel (used remaining : List Move), remaining.length < fuel →
      (used ++ remaining).Perm ms → remaining.Sublist ms →
      (((subgroupLoopAux fuel (zeroIdx B (moveEnds used)) remaining).1.flatMap
          Step.moves).Perm remaining ∧
        (∀ st ∈ (subgroupLoopAux fuel (zeroIdx B (moveEnds used)) remaining).1,
          ∀ mv ∈ st.moves, isMoveValidOnBoard st.board mv = true) ∧
        (subgroupLoopAux fuel (zeroIdx B (moveEnds used)) remaining).2 =
          zeroIdx B (moveEnds ms)) := by
  intro fuel
  induction fuel with
  | zero =>
    intro used remaining hlen _ _
    exact absurd hlen (by omega)
  | succ fuel ih =>
    intro used remaining hlen hperm hsub
    by_cases hrem : remaining = []
    · subst hrem
      rw [subgroupLoopAux, if_pos rfl]
      refine ⟨by simp, by simp, ?_⟩
      apply zeroIdx_congr
      intro v
      have hpu : used.Perm ms := by simpa using hperm
      exact (perm_moveEnds hpu).mem_iff
    · obtain ⟨h0, rest, rfl⟩ : ∃ h0 rest, remaining = h0 :: rest := by
        cases remaining with
        | nil => exact absurd rfl hrem
        | cons a l => exact ⟨a, l, rfl⟩
      have hhv : isMoveValidOnBoard (zeroIdx B (moveEnds used)) h0 = true :=
        head_valid_subgroup B ms used rest h0 hN hV hperm hsub
      have hfilne : (h0 :: rest).filter
          (fun mv => isMoveValidOnBoard (zeroIdx B (moveEnds used)) mv) ≠ [] := by
        apply List.ne_nil_of_mem (List.mem_filter.mpr ⟨List.mem_cons_self _ _, hhv⟩)
      rw [subgroupLoopAux, if_neg hrem, if_neg hfilne]
      simp only []
      have hsubm : ∀ m ∈ h0 :: rest, m ∈ ms := fun m hm => hsub.subset hm
      have husedm : ∀ m ∈ used, m ∈ ms := by
        intro m hm
        exact hperm.subset (List.mem_append_left _ hm)
      have hfold : ((h0 :: rest).filter
            (fun mv => isMoveValidOnBoard (zeroIdx B (moveEnds used)) mv)).foldl
            (fun bd mv => applyMove bd mv.1 mv.2) (zeroIdx B (moveEnds used)) =
          zeroIdx B (moveEnds (used ++ (h0 :: rest).filter
            (fun mv => isMoveValidOnBoard (zeroIdx B (moveEnds used)) mv))) := by
        rw [foldApply_zeroIdx B (moveEnds ms) hA hBd _ (moveEnds used)
          (moveEnds_subset husedm)
          (moveEnds_subset (fun m hm => hsubm m (List.mem_of_mem_filter hm)))]
        apply zeroIdx_congr
        intro v
        rw [moveEnds_append]
        simp only [List.mem_append, List.mem_reverse]
        tauto
      rw [hfold]
      have hperm2 : ((h0 :: rest).filter
            (fun mv => isMoveValidOnBoard (zeroIdx B (moveEnds used)) mv) ++
          (h0 :: rest).filter
            (fun mv => !isMoveValidOnBoard (zeroIdx B (moveEnds used)) mv)).Perm
          (h0 :: rest) := List.filter_append_perm _ _
      have hlen2 : ((h0 :: rest).filter
          (fun mv => !isMoveValidOnBoard (zeroIdx B (moveEnds used)) mv)).length < fuel := by
        have hl := hperm2.length_eq
        rw [List.length_append] at hl
        have hpos : 0 < ((h0 :: rest).filter
            (fun mv => isMoveValidOnBoard (zeroIdx B (moveEnds used)) mv)).length :=
          List.length_pos.mpr hfilne
        simp only [List.length_cons] at hl hlen
        omega
      have hperm3 : ((used ++ (h0 :: rest).filter
            (fun mv => isMoveValidOnBoard (zeroIdx B (moveEnds used)) mv)) ++
          (h0 :: rest).filter
            (fun mv => !isMoveValidOnBoard (zeroIdx B (moveEnds used)) mv)).Perm ms := by
        rw [List.append_assoc]
        exact ((hperm2.append_left used).trans hperm)
      have hsub3 : ((h0 :: rest).filter
          (fun mv => !isMoveValidOnBoard (zeroIdx B (moveEnds used)) mv)).Sublist ms :=
        (List.filter_sublist _).trans hsub
      obtain ⟨ihP, ihL, ihB2⟩ := ih _ _ hlen2 hperm3 hsub3
      refine ⟨?_, ?_, ihB2⟩
      · simp only [List.flatMap_cons]
        exact ((ihP.append_left _).trans (hperm2)).symm.symm
      · intro st hst
        rcases List.mem_cons.mp hst with h1 | h1
        · rw [h1]
          intro mv hmv
          exact (List.mem_filter.mp hmv).2
        · exact ihL st h1

theorem subgroupLoop_facts (B : Board) (ms : List Move)
    (hv : validPlayB B ms = true) (hnr : playNoRemoval B ms = true) (hne : ms ≠ []) :
    ((subgroupLoop B ms).1.flatMap Step.moves).Perm ms ∧
    (∀ st ∈ (subgroupLoop B ms).1,
      ∀ mv ∈ st.moves, isMoveValidOnBoard st.board mv = true) ∧
    (subgroupLoop B ms).2 = replayBoard B ms := by
  obtain ⟨hN, hBd, hR, hV, hA⟩ := seg_facts ms B hv hnr
  have hmain := subgroupAux_facts B ms hN hBd hV (hA hne) (ms.length + 1) [] ms
    (by omega) (by simp) (List.Sublist.refl ms)
  have hB0 : zeroIdx B (moveEnds ([] : List Move)) = B := by
    have h1 : moveEnds ([] : List Move) = [] := rfl
    rw [h1, zeroIdx_nil]
  rw [hB0] at hmain
  unfold subgroupLoop
  rw [hR]
  exact hmain

theorem getLast?_decomp {α : Type} {l : List α} {a : α} (h : l.getLast? = some a) :
    l = l.dropLast ++ [a] ∧ a ∈ l := by
  have hne : l ≠ [] := by
    intro he
    rw [he] at h
    exact absurd h (by simp)
  rw [List.getLast?_eq_getLast l hne] at h
  injection h with h
  constructor
  · rw [← h]
    exact (List.dropLast_append_getLast hne).symm
  · rw [← h]
    exact List.getLast_mem hne

theorem mergeRowRemoval_facts (acc : List Step) (curBoard : Board) (mv : Move)
    (rr : Option Nat)
    (hacc : ∀ st ∈ acc, ∀ m ∈ st.moves, isMoveValidOnBoard st.board m = true)
    (hmv : isMoveValidOnBoard curBoard mv = true) :
    (∀ st ∈ (mergeRowRemoval acc curBoard mv rr).1,
      ∀ m ∈ st.moves, isMoveValidOnBoard st.board m = true) ∧
    ((mergeRowRemoval acc curBoard mv rr).1.flatMap Step.moves) =
      (acc.flatMap Step.moves) ++ [mv] ∧
    (mergeRowRemoval acc curBoard mv rr).2 = applyMove curBoard mv.1 mv.2 := by
  unfold mergeRowRemoval
  simp only []
  split
  · rename_i hc
    cases hlast : acc.getLast? with
    | none =>
      rw [hlast] at hc
      exact absurd hc (by simp)
    | some lastStep =>
      rw [hlast] at hc
      simp only [] at hc
      obtain ⟨hdecomp, hmem⟩ := getLast?_decomp hlast
      have hvalidmv : isMoveValidOnBoard lastStep.board mv = true := by
        by_cases hv2 : isMoveValidOnBoard lastStep.board mv = true
        · exact hv2
        · rw [if_neg hv2] at hc
          exact absurd hc (by simp)
      refine ⟨?_, ?_, rfl⟩
      · intro st hst
        rcases List.mem_append.mp hst with h1 | h1
        · exact hacc st ((List.dropLast_sublist _).subset h1)
        · rw [List.mem_singleton.mp h1]
          intro m hm
          simp only [] at hm
          rcases List.mem_append.mp hm with h2 | h2
          · exact hacc lastStep hmem m h2
          · rw [List.mem_singleton.mp h2]
            exact hvalidmv
      · conv_lhs => rw [List.flatMap_append]
        conv_rhs => rw [hdecomp, List.flatMap_append]
        simp only [List.flatMap_cons, List.flatMap_nil, List.append_nil]
        rw [List.append_assoc]
  · refine ⟨?_, ?_, rfl⟩
    · intro st hst
      rcases List.mem_append.mp hst with h1 | h1
      · exact hacc st h1
      · rw [List.mem_singleton.mp h1]
        intro m hm
        rw [List.mem_singleton.mp hm]
        exact hmv
    · rw [List.flatMap_append]
      simp

theorem replayBoard_take_succ (b : Board) (moves : List Move) (i : Nat)
    (h : i < moves.length) :
    replayBoard b (moves.take (i + 1)) =
      applyMove (replayBoard b (moves.take i)) (moves.getD i (0, 0)).1
        (moves.getD i (0, 0)).2 := by
  rw [List.take_succ, List.getElem?_eq_getElem h]
  simp only [Option.toList_some]
  rw [replayBoard_append]
  have hg : moves.getD i (0, 0) = moves[i] := by
    rw [List.getD_eq_getElem?_getD, List.getElem?_eq_getElem h]
    rfl
  rw [hg]
  rfl

theorem take_add_seg (moves : List Move) (segStart i : Nat) (h : segStart ≤ i) :
    moves.take i = moves.take segStart ++ (moves.drop segStart).take (i - segStart) := by
  conv_lhs => rw [show i = segStart + (i - segStart) by omega]
  exact List.take_add moves segStart (i - segStart)

theorem seg_no_removal (b : Board) (moves : List Move) (hv : validPlayB b moves = true)
    (segStart i : Nat) (hsi : segStart ≤ i) (hile : i ≤ moves.length)
    (htag : ∀ s, segStart ≤ s → s < i → s < moves.length →
      ((tagMoves b moves).getD s (false, none)).1 = false) :
    playNoRemoval (replayBoard b (moves.take segStart))
      ((moves.drop segStart).take (i - segStart)) = true := by
  apply playNoRemoval_of
  · exact validPlayB_drop_take b moves segStart (i - segStart) hv
  · intro s hs
    have hms : ((moves.drop segStart).take (i - segStart)).length = i - segStart := by
      simp only [List.length_take, List.length_drop]
      omega
    rw [hms] at hs
    have hgetD := getD_drop_take moves segStart (i - segStart) s hs
    have htk : (((moves.drop segStart).take (i - segStart)).take s) =
        (moves.drop segStart).take s := by
      rw [List.take_take]
      congr 1
      omega
    have hrb : replayBoard (replayBoard b (moves.take segStart))
        (((moves.drop segStart).take (i - segStart)).take s) =
        replayBoard b (moves.take (segStart + s)) := by
      rw [htk, ← replayBoard_append, ← List.take_add]
    rw [hrb, hgetD]
    have htag2 := htag (segStart + s) (by omega) (by omega) (by omega)
    rw [tagMoves_getD_fst b moves (segStart + s) (by omega)] at htag2
    simp only [decide_eq_false_iff_not] at htag2
    exact htag2

set_option maxHeartbeats 3200000 in
theorem groupStep2_facts (b : Board) (moves : List Move) (hv : validPlayB b moves = true) :
    ∀ fuel i segStart curBoard acc,
      moves.length + 2 - i ≤ fuel →
      segStart ≤ i →
      (i ≤ moves.length ∨ (i = moves.length + 1 ∧ segStart = i)) →
      curBoard = replayBoard b (moves.take segStart) →
      (∀ s, segStart ≤ s → s < i → s < moves.length →
        ((tagMoves b moves).getD s (false, none)).1 = false) →
      (∀ st ∈ acc, ∀ mv ∈ st.moves, isMoveValidOnBoard st.board mv = true) →
      (acc.flatMap Step.moves).Perm (moves.take segStart) →
      (∀ st ∈ groupStep2 moves (tagMoves b moves) fuel i segStart curBoard acc,
        ∀ mv ∈ st.moves, isMoveValidOnBoard st.board mv = true) ∧
      ((groupStep2 moves (tagMoves b moves) fuel i segStart curBoard acc).flatMap
        Step.moves).Perm moves := by
  intro fuel
  induction fuel with
  | zero =>
    intro i segStart curBoard acc hfuel hsi hi hcur htag hacc hflat
    rcases hi with h | ⟨h, _⟩
    · exact absurd hfuel (by omega)
    · exact absurd hfuel (by omega)
  | succ fuel ih =>
    intro i segStart curBoard acc hfuel hsi hi hcur htag hacc hflat
    rw [groupStep2]
    by_cases hile : i ≤ moves.length
    · rw [if_pos hile]
      simp only []
      by_cases hflush : ((tagMoves b moves).getD i (false, none)).1 = true ∨
          i = moves.length
      · rw [if_pos hflush]
        by_cases hlt : segStart < i
        · rw [if_pos hlt]
          have hvseg := validPlayB_drop_take b moves segStart (i - segStart) hv
          rw [← hcur] at hvseg
          have hnrseg := seg_no_removal b moves hv segStart i (by omega) hile htag
          rw [← hcur] at hnrseg
          have hnseg : (moves.drop segStart).take (i - segStart) ≠ [] := by
            apply List.ne_nil_of_length_pos
            simp only [List.length_take, List.length_drop]
            omega
          obtain ⟨hsegP, hsegL, hsegB⟩ :=
            subgroupLoop_facts curBoard ((moves.drop segStart).take (i - segStart))
              hvseg hnrseg hnseg
          have hsegB2 : (subgroupLoop curBoard ((moves.drop segStart).take
              (i - segStart))).2 = replayBoard b (moves.take i) := by
            rw [hsegB, hcur, ← replayBoard_append, ← take_add_seg moves segStart i (by omega)]
          have hBIG1L : ∀ st ∈ acc ++ (subgroupLoop curBoard ((moves.drop segStart).take
              (i - segStart))).1, ∀ mv ∈ st.moves, isMoveValidOnBoard st.board mv = true := by
            intro st hst
            rcases List.mem_append.mp hst with h1 | h1
            · exact hacc st h1
            · exact hsegL st h1
          have hflatBIG1 : ((acc ++ (subgroupLoop curBoard ((moves.drop segStart).take
              (i - segStart))).1).flatMap Step.moves).Perm (moves.take i) := by
            rw [List.flatMap_append, take_add_seg moves segStart i (by omega)]
            exact hflat.append hsegP
          rw [hsegB2]
          by_cases hRR : ((tagMoves b moves).getD i (false, none)).1 = true
          · rw [if_pos hRR]
            have hilt : i < moves.length := by
              by_contra hc'
              have hieq : moves.length ≤ i := by omega
              rw [List.getD_eq_default _ _ (by rw [tagMoves_length]; omega)] at hRR
              exact absurd hRR (by simp)
            have hmvvalid := findAllMoves_sound _ _ (validPlayB_getD_mem b moves hv i hilt)
            obtain ⟨hmL, hmF, hmB⟩ :=
              mergeRowRemoval_facts _ (replayBoard b (moves.take i)) (moves.getD i (0, 0))
                ((tagMoves b moves).getD i (false, none)).2 hBIG1L hmvvalid
            refine ih (i + 1) (i + 1) _ _ (by omega) (by omega) (by omega)
              ?_ (fun s h1 h2 _ => absurd h2 (by omega)) hmL ?_
            · rw [hmB, ← replayBoard_take_succ b moves i hilt]
            · rw [hmF]
              have htk := List.take_succ (l := moves) (n := i)
              rw [List.getElem?_eq_getElem hilt] at htk
              simp only [Option.toList_some] at htk
              rw [htk]
              apply List.Perm.append hflatBIG1
              have hg : moves.getD i (0, 0) = moves[i] := by
                rw [List.getD_eq_getElem?_getD, List.getElem?_eq_getElem hilt]
                rfl
              rw [hg]
          · rw [if_neg hRR]
            have hlast : i = moves.length := by
              rcases hflush with h | h
              · exact absurd h hRR
              · exact h
            have htkeq : moves.take (i + 1) = moves.take i := by
              rw [hlast, List.take_of_length_le (by omega), List.take_of_length_le (by omega)]
            refine ih (i + 1) (i + 1) _ _ (by omega) (by omega) (by omega)
              ?_ (fun s h1 h2 _ => absurd h2 (by omega)) hBIG1L ?_
            · rw [htkeq]
            · rw [htkeq]
              exact hflatBIG1
        · rw [if_neg hlt]
          have hseq : segStart = i := by omega
          have hflati : (acc.flatMap Step.moves).Perm (moves.take i) := by
            rw [← hseq]
            exact hflat
          by_cases hRR : ((tagMoves b moves).getD i (false, none)).1 = true
          · rw [if_pos hRR]
            have hilt : i < moves.length := by
              by_contra hc'
              rw [List.getD_eq_default _ _ (by rw [tagMoves_length]; omega)] at hRR
              exact absurd hRR (by simp)
            have hmvvalid0 := findAllMoves_sound _ _ (validPlayB_getD_mem b moves hv i hilt)
            have hcuri : curBoard = replayBoard b (moves.take i) := by
              rw [hcur, hseq]
            rw [hcuri]
            have hacc2 : ∀ st ∈ acc ++ ([] : List Step),
                ∀ mv ∈ st.moves, isMoveValidOnBoard st.board mv = true := by
              intro st hst
              rw [List.append_nil] at hst
              exact hacc st hst
            obtain ⟨hmL, hmF, hmB⟩ :=
              mergeRowRemoval_facts (acc ++ []) (replayBoard b (moves.take i))
                (moves.getD i (0, 0))
                ((tagMoves b moves).getD i (false, none)).2 hacc2 hmvvalid0
            refine ih (i + 1) (i + 1) _ _ (by omega) (by omega) (by omega)
              ?_ (fun s h1 h2 _ => absurd h2 (by omega)) hmL ?_
            · rw [hmB, ← replayBoard_take_succ b moves i hilt]
            · rw [hmF]
              have htk := List.take_succ (l := moves) (n := i)
              rw [List.getElem?_eq_getElem hilt] at htk
              simp only [Option.toList_some] at htk
              rw [htk]
              have hflat2 : ((acc ++ ([] : List Step)).flatMap Step.moves).Perm
                  (moves.take i) := by
                rw [List.append_nil]
                exact hflati
              apply List.Perm.append hflat2
              have hg : moves.getD i (0, 0) = moves[i] := by
                rw [List.getD_eq_getElem?_getD, List.getElem?_eq_getElem hilt]
                rfl
              rw [hg]
          · rw [if_neg hRR]
            have hlast : i = moves.length := by
              rcases hflush with h | h
              · exact absurd h hRR
              · exact h
            have htkeq : moves.take (i + 1) = moves.take i := by
              rw [hlast, List.take_of_length_le (by omega), List.take_of_length_le (by omega)]
            have hacc2 : ∀ st ∈ acc ++ ([] : List Step),
                ∀ mv ∈ st.moves, isMoveValidOnBoard st.board mv = true := by
              intro st hst
              rw [List.append_nil] at hst
              exact hacc st hst
            refine ih (i + 1) (i + 1) _ _ (by omega) (by omega) (by omega)
              ?_ (fun s h1 h2 _ => absurd h2 (by omega)) hacc2 ?_
            · rw [hcur, hseq, htkeq]
            · rw [htkeq, List.append_nil]
              exact hflati
      · rw [if_neg hflush]
        push_neg at hflush
        obtain ⟨hnRR, hnlast⟩ := hflush
        refine ih (i + 1) segStart curBoard acc (by omega) (by omega) (by omega)
          hcur ?_ hacc hflat
        intro s h1 h2 h3
        by_cases hsi2 : s = i
        · rw [hsi2]
          simpa using hnRR
        · exact htag s h1 (by omega) h3
    · rw [if_neg hile]
      rcases hi with h | ⟨h1, h2⟩
      · exact absurd h hile
      · refine ⟨hacc, ?_⟩
        rw [h2, h1, List.take_of_length_le (by omega)] at hflat
        exact hflat

theorem grouping_of_validPlay (b : Board) (seq : List Move)
    (hv : validPlayB b seq = true) :
    (((groupMovesForDisplay b seq).flatMap Step.moves).Perm seq) ∧
    (∀ st ∈ groupMovesForDisplay b seq,
      ∀ mv ∈ st.moves, isMoveValidOnBoard st.board mv = true) := by
  unfold groupMovesForDisplay
  have hmain := groupStep2_facts b seq hv (seq.length + 2) 0 0 b []
    (by omega) (by omega) (by left; omega)
    (by rfl)
    (fun s h1 h2 _ => absurd h2 (by omega))
    (by simp)
    (by simp)
  exact ⟨hmain.2, hmain.1⟩

/-! ### Every ranked result of solve is an enumerator-produced sequence -/

theorem admitEntry_results_valid (b : Board) (k : Nat) (bdx : Board) (sq : List Move)
    (c : SearchCore) (hc : ∀ e ∈ c.topResults, validPlayB b e.seq = true)
    (hsq : validPlayB b sq = true) :
    ∀ e ∈ (admitEntry k bdx sq c).topResults, validPlayB b e.seq = true := by
  intro e he
  unfold admitEntry at he
  simp only [] at he
  split at he
  · have hsorted : e ∈ stableSortJS resultLE (c.topResults ++ [⟨sq, bdx⟩]) := by
      split at he
      · exact (List.dropLast_sublist _).subset he
      · exact he
    have hmem := (stableSortJS_perm resultLE _).subset hsorted
    rcases List.mem_append.mp hmem with h1 | h1
    · exact hc e h1
    · rw [List.mem_singleton.mp h1]
      exact hsq
  · exact hc e he

set_option maxHeartbeats 1600000 in
theorem dfsRun_results_valid (b : Board) (topK : Nat) :
    ∀ fuel curBoard curSeq (st : SearchState),
      validPlayB b curSeq = true → replayBoard b curSeq = curBoard →
      (∀ e ∈ st.core.topResults, validPlayB b e.seq = true) →
      ∀ e ∈ (dfsRun topK fuel curBoard curSeq st).core.topResults,
        validPlayB b e.seq = true := by
  intro fuel
  induction fuel with
  | zero =>
    intro curBoard curSeq st _ _ hres e he
    rw [dfsRun] at he
    exact hres e he
  | succ fuel ih =>
    intro curBoard curSeq st hvseq hrep hres e he
    rw [dfsRun] at he
    split at he
    · exact hres e he
    · simp only [] at he
      split at he
      · exact hres e he
      · rw [progressStep_core] at he
        have hfold : ∀ (l : List Move) (accSt : SearchState × Bool × Nat),
            (∀ mv ∈ l, mv ∈ findAllMoves curBoard) →
            (∀ e2 ∈ accSt.1.core.topResults, validPlayB b e2.seq = true) →
            ∀ e2 ∈ (l.foldl (dfsLoopStep (dfsRun topK fuel) curBoard curSeq
                curSeq.length) accSt).1.core.topResults,
              validPlayB b e2.seq = true := by
          intro l
          induction l with
          | nil =>
            intro accSt _ hA e2 he2
            rw [List.foldl_nil] at he2
            exact hA e2 he2
          | cons mv l ihl =>
            intro accSt hmem hA e2 he2
            rw [List.foldl_cons] at he2
            apply ihl _ (fun m hm => hmem m (List.mem_cons_of_mem _ hm)) _ e2 he2
            intro e3 he3
            unfold dfsLoopStep at he3
            split at he3
            · exact hA e3 he3
            · simp only [] at he3
              have hmv := hmem mv (List.mem_cons_self _ _)
              have hvseq2 : validPlayB b (curSeq ++ [mv]) = true := by
                rw [validPlayB_append, Bool.and_eq_true]
                refine ⟨hvseq, ?_⟩
                rw [hrep, validPlayB, Bool.and_eq_true]
                exact ⟨(contains_mem_move _ _).mpr hmv, rfl⟩
              have hrep2 : replayBoard b (curSeq ++ [mv]) =
                  applyMove curBoard mv.1 mv.2 := by
                rw [replayBoard_append, hrep]
                rfl
              refine ih (applyMove curBoard mv.1 mv.2) (curSeq ++ [mv]) _ hvseq2 hrep2
                ?_ e3 he3
              intro e4 he4
              exact hA e4 he4
        split at he
        · refine admitEntry_results_valid b topK curBoard curSeq _ ?_ hvseq e he
          intro e2 he2
          exact hres e2 he2
        · split at he
          · exact hfold _ _ (fun mv hmv => (stableSortJS_perm _ _).subset hmv) hres e he
          · exact hfold _ _ (fun mv hmv => (stableSortJS_perm _ _).subset hmv) hres e he

theorem solve_results_valid (b : Board) (k : Nat) (cb : Bool) (clock : List Int) :
    ∀ e ∈ (solve b k cb clock).1.results, validPlayB b e.seq = true := by
  intro e he
  unfold solve solveState at he
  simp only [] at he
  exact dfsRun_results_valid b k (solveFuel b) b [] _ rfl rfl (by simp) e he

/-- C1 counterexample: on the board [3,4,6,3,5,5,9,-1,-1] the only result
solve returns is the sequence [(1,2),(0,3),(4,5)], yet groupMovesForDisplay
concatenates its steps to [(1,2),(4,5),(0,3)]: the moves of that sequence
come back reordered, not equal to the original order as the claim states. -/
theorem c1_counterexample :
    (solve regroupBoard 20 false []).1.results.map SearchEntry.seq = [regroupSeq] ∧
      ((groupMovesForDisplay regroupBoard regroupSeq).flatMap Step.moves) ≠ regroupSeq := by
  constructor
  · decide
  · decide

/-- C1 amended: for every start board and every move sequence produced by
solve, the concatenation of the steps of groupMovesForDisplay is a
permutation of the original sequence (no move dropped or duplicated, but
possibly reordered), and every move in every step is legal (pairing rule
plus visibility rule) against that step's starting board. -/
theorem c1_group_amended (b : Board) (k : Nat) (cb : Bool) (clock : List Int)
    (r : SearchEntry) (hr : r ∈ (solve b k cb clock).1.results) :
    (((groupMovesForDisplay b r.seq).flatMap Step.moves).Perm r.seq) ∧
    (∀ st ∈ groupMovesForDisplay b r.seq,
      ∀ mv ∈ st.moves, isMoveValidOnBoard st.board mv = true) :=
  grouping_of_validPlay b r.seq (solve_results_valid b k cb clock r hr)

/-- C1 witness: the result solve returns on regroupBoard, with the grouping
permutation and per-step legality instantiated on it. -/
theorem c1_witness :
    (⟨regroupSeq, regroupFinal⟩ : SearchEntry) ∈ (solve regroupBoard 20 false []).1.results ∧
    ((((groupMovesForDisplay regroupBoard regroupSeq).flatMap Step.moves).Perm regroupSeq) ∧
      (∀ st ∈ groupMovesForDisplay regroupBoard regroupSeq,
        ∀ mv ∈ st.moves, isMoveValidOnBoard st.board mv = true)) :=
  ⟨by decide, c1_group_amended regroupBoard 20 false [] ⟨regroupSeq, regroupFinal⟩ (by decide)⟩
